import Mathlib

/-!
Verification of the Baby SNARK protocol core (`babysnark.py`).

The finite-field polynomial library and the pairing-friendly group are
external collaborators of the source file (imported there from
`finitefield` / `ssbls12`); the spec declares them out of scope and fixes
their contracts (spec sections 4.1 and 6).  They are modelled from the
spec as recorded in each doc comment.  Group elements are represented by
their discrete logarithms with respect to the generator G: the group
capability only exposes the identity, addition, scalar multiplication by
a field element and a bilinear pairing, and on that interface the
exponent representation is exact (two group elements are equal iff their
discrete logs are, since G generates a group of prime order).  Elements
of the target group GT are likewise represented by their exponent with
respect to pair(G, G), so multiplication in GT is addition of exponents.

Python runtime failures are modelled as values of the error type
`PyErr`: a failing `assert` becomes `PyErr.assertFail line` (the line
number of the assert in `babysnark.py`, observable in Python through the
traceback) and an out-of-range list subscript becomes `PyErr.indexError`.
The module-level globals that `babysnark.py` reads and writes (`tau`,
`beta`, `gamma` written by the setup; `n_stmt` and `a` read by the
verifier) are made explicit: the setup returns the post-call values of
its globals next to the CRS, and the verifier receives the values of the
globals it reads as the extra arguments `g_n_stmt` and `g_a`.
-/

namespace BabySnark

/-- Python-level runtime errors of the protocol core: a failed `assert`
statement (tagged with its source line in `babysnark.py`) or an
out-of-range list index. -/
inductive PyErr where
  | assertFail (line : Nat)
  | indexError
deriving DecidableEq

/-- Post-call values of the module-level trapdoor globals written by
`babysnark_setup` via its `global tau, beta, gamma` statement
(`babysnark.py` lines 130-134). `none` means never assigned. -/
structure TrapdoorGlobals (F : Type) where
  tau : Option F
  beta : Option F
  gamma : Option F
deriving DecidableEq

instance {ε β : Type} [DecidableEq ε] [DecidableEq β] : DecidableEq (Except ε β) := fun a b =>
  match a, b with
  | .ok x, .ok y =>
    if h : x = y then .isTrue (by rw [h]) else .isFalse (fun hh => h (Except.ok.inj hh))
  | .ok _, .error _ => .isFalse (fun hh => Except.noConfusion hh)
  | .error _, .ok _ => .isFalse (fun hh => Except.noConfusion hh)
  | .error e, .error f =>
    if h : e = f then .isTrue (by rw [h]) else .isFalse (fun hh => h (Except.error.inj hh))

/-- A small concrete prime field with kernel-executable arithmetic, used
to instantiate the parametric development on concrete program runs.  The
inverse is computed by Fermat exponentiation `x^11`, so every field
operation reduces definitionally. -/
def F13 : Type := Fin 13

instance : DecidableEq F13 := inferInstanceAs (DecidableEq (Fin 13))

instance : Fintype F13 := inferInstanceAs (Fintype (Fin 13))

instance : CommRing F13 := inferInstanceAs (CommRing (Fin 13))

/-- Multiplicative inverse on `F13` by Fermat exponentiation: `x^11`. -/
def F13.finv (a : F13) : F13 :=
  let x : Fin 13 := a
  let x2 := x * x
  let x4 := x2 * x2
  let x8 := x4 * x4
  x8 * x2 * x

instance : Inv F13 := ⟨F13.finv⟩

instance : Field F13 where
  inv := F13.finv
  exists_pair_ne := by decide
  mul_inv_cancel := by decide
  inv_zero := by decide
  nnqsmul q a := (q.num : F13) * F13.finv (q.den : F13) * a
  qsmul q a := (q.num : F13) * F13.finv (q.den : F13) * a
  nnratCast q := (q.num : F13) * F13.finv (q.den : F13)
  ratCast q := (q.num : F13) * F13.finv (q.den : F13)

variable {α : Type}

/-- Python list subscript `l[i]` for a non-negative index: the element,
or an IndexError when the index is out of range. -/
def pyIdx (l : List α) (i : Nat) : Except PyErr α :=
  if h : i < l.length then .ok l[i] else .error .indexError

/-- Python slice `l[k:]` for an integer `k` (as used with the negative
start `CRS[-(n - n_stmt):]` in the source): a non-negative start drops
`k` elements, a negative start keeps the last `-k` elements (clamped). -/
def pySliceFrom (l : List α) (k : Int) : List α :=
  if 0 ≤ k then l.drop k.toNat else l.drop (l.length - (-k).toNat)

variable {F : Type} [Field F] [DecidableEq F]

/-- Modelled from the spec (section 3, Polynomial): coefficient lists are
kept normalized with trailing zero coefficients trimmed, as in the
polynomial library the source imports. -/
def trim : List F → List F
  | [] => []
  | c :: cs =>
    match trim cs with
    | [] => if c = 0 then [] else [c]
    | d :: ds => c :: d :: ds

/-- Coefficient-wise sum of two raw coefficient lists (the shorter list
is padded with zeros). -/
def addRaw : List F → List F → List F
  | [], l2 => l2
  | l1, [] => l1
  | a :: l1, b :: l2 => (a + b) :: addRaw l1 l2

/-- Coefficient-wise difference of two raw coefficient lists. -/
def subRaw : List F → List F → List F
  | [], l2 => l2.map (fun b => -b)
  | l1, [] => l1
  | a :: l1, b :: l2 => (a - b) :: subRaw l1 l2

/-- Convolution product of two raw coefficient lists. -/
def mulRaw : List F → List F → List F
  | [], _ => []
  | a :: l1, l2 => addRaw (l2.map (fun b => a * b)) (0 :: mulRaw l1 l2)

/-- Modelled from the spec (section 4.1): polynomial addition, with the
result kept in trimmed normal form. -/
def padd (l1 l2 : List F) : List F := trim (addRaw l1 l2)

/-- Modelled from the spec (section 4.1): polynomial subtraction. -/
def psub (l1 l2 : List F) : List F := trim (subRaw l1 l2)

/-- Modelled from the spec (section 4.1): polynomial multiplication as
convolution of coefficient sequences. -/
def pmul (l1 l2 : List F) : List F := trim (mulRaw l1 l2)

/-- Modelled from the spec (section 4.1): scalar multiplication of a
polynomial by a field element. -/
def pscale (c : F) (l : List F) : List F := trim (l.map (fun b => c * b))

/-- Polynomial evaluation (Horner form) of a coefficient list. -/
def peval (l : List F) (x : F) : F := l.foldr (fun c acc => c + x * acc) 0

/-- One Euclidean-division loop of the polynomial library, mirroring the
`while remainder.degree() >= divisor.degree()` loop: peel off the leading
term of the remainder with the matching monomial multiple of the
divisor.  The fuel argument bounds the iteration count; it is never
exhausted when it starts at the dividend's length (each step strictly
shortens the remainder). -/
def pdivmodAux (b : List F) : Nat → List F → List F → List F × List F
  | 0, q, r => (q, r)
  | fuel + 1, q, r =>
    if r.length < b.length then (q, r)
    else
      let k := r.length - b.length
      let c := r.getLastD 0 / b.getLastD 0
      let mono : List F := List.replicate k 0 ++ [c]
      pdivmodAux b fuel (padd q mono) (psub r (pmul mono b))

/-- Modelled from the spec (section 4.1): Euclidean division of
polynomials, returning the quotient and the remainder. -/
def pdivmod (a b : List F) : List F × List F := pdivmodAux b a.length [] a

/-- Interpretation of a coefficient list as a Mathlib polynomial (little
endian: index i is the coefficient of X^i).  Proof-side bridge only; the
executable code works on the lists themselves. -/
noncomputable def toP : List F → Polynomial F
  | [] => 0
  | c :: t => Polynomial.C c + toP t * Polynomial.X

/-- Vanishing polynomial `(X - S1) * ... * (X - Sn)` (`babysnark.py`
lines 44-54): fold of the linear factors `Poly([-s, 1])`. -/
def vanishing_poly (S : List F) : List F := S.foldl (fun p s => pmul p [-s, 1]) [1]

/-- Modelled from the spec (section 4.1): the Lagrange basis polynomial
for node `i` of the node list `xs` - the product of the linear factors
through the other nodes, scaled so that it takes value 1 at node `i`.
Python raises ZeroDivisionError on coincident nodes; here the inverse of
the zero denominator is junk, and every theorem that touches
interpolation carries the distinct-nodes hypothesis under which the two
agree. -/
def lagrangeBasis (xs : List F) (i : Nat) : List F :=
  let xi := xs.getD i 0
  let others := xs.eraseIdx i
  pscale ((others.map (fun xj => xi - xj)).prod)⁻¹ (vanishing_poly others)

/-- Modelled from the spec (section 4.1): Lagrange interpolation through
the points `(xs i, ys i)`, the unique polynomial of degree below
`xs.length` through them when the nodes are distinct. -/
def interpolate (xs ys : List F) : List F :=
  (List.range xs.length).foldl
    (fun acc i => padd acc (pscale (ys.getD i 0) (lagrangeBasis xs i))) []

/-- Evaluation points `rs = [Fp(1+i) for i in range(m)]` (`babysnark.py`
lines 125, 152, 209). -/
def rsOf (m : Nat) : List F := (List.range m).map (fun i => ((1 + i : Nat) : F))

/-- Column `k` of the constraint matrix, `U[:,k]`. -/
def colOf (U : List (List F)) (k : Nat) : List F := U.map (fun row => row.getD k 0)

/-- Per-column interpolated polynomials
`Us = [Poly.interpolate(rs, U[:,k]) for k in range(n)]`
(`babysnark.py` lines 128, 156, 214). -/
def UsOf (U : List (List F)) (n : Nat) : List (List F) :=
  (List.range n).map (fun k => interpolate (rsOf U.length) (colOf U k))

/-- Target polynomial `t = vanishing_poly(rs)` (`babysnark.py` lines
153, 210). -/
def tOf (m : Nat) : List F := vanishing_poly (rsOf m)

/-- Witness-only polynomial `vw`, built by the prover's loop
`for k in range(n_stmt, n): vw += a[k] * Us[k]` starting from the zero
polynomial `Poly([0])` (`babysnark.py` lines 159-161).  The subscripts
`a[k]` are in range because the prover asserts `n == len(a)` first. -/
def vwOf (U : List (List F)) (n n_stmt : Nat) (a : List F) : List F :=
  (List.range' n_stmt (n - n_stmt)).foldl
    (fun acc k => padd acc (pscale (a.getD k 0) ((UsOf U n).getD k []))) []

/-- Full polynomial `v`, continuing from `vw` with
`for k in range(n_stmt): v += a[k] * Us[k]` (`babysnark.py` lines
164-166). -/
def vOf (U : List (List F)) (n n_stmt : Nat) (a : List F) : List F :=
  (List.range n_stmt).foldl
    (fun acc k => padd acc (pscale (a.getD k 0) ((UsOf U n).getD k []))) (vwOf U n n_stmt a)

/-- Statement polynomial as the verifier builds it,
`for k in range(n_stmt): vs += a[k] * Us[k]` from the zero polynomial
(`babysnark.py` lines 217-219), as a pure function of the index data. -/
def vsOf (U : List (List F)) (n n_stmt : Nat) (a : List F) : List F :=
  (List.range n_stmt).foldl
    (fun acc k => padd acc (pscale (a.getD k 0) ((UsOf U n).getD k []))) []

/-- The prover's quadratic residual `p = v * v - 1` (`babysnark.py` line
169). -/
def pOf (U : List (List F)) (n n_stmt : Nat) (a : List F) : List F :=
  psub (pmul (vOf U n n_stmt a) (vOf U n n_stmt a)) [1]

/-- Row-vector dot product, one entry of `U.dot(a)`. -/
def dotRow (row a : List F) : F := (List.zipWith (fun x y => x * y) row a).sum

/-- The SSP invariant `(U.dot(a) * U.dot(a) == 1).all()` (`babysnark.py`
line 105 and the spec's section 3 witness invariant). -/
def SSP (U : List (List F)) (a : List F) : Prop :=
  ∀ row ∈ U, dotRow row a * dotRow row a = 1

instance (U : List (List F)) (a : List F) : Decidable (SSP U a) :=
  inferInstanceAs (Decidable (∀ row ∈ U, dotRow row a * dotRow row a = 1))

/-- Modelled from the spec (section 6 group capability): the pairing on
discrete logarithms, `pair(xG, yG) = pair(G,G)^(xy)`, recorded by the
exponent `x * y`. -/
def pair (P Q : F) : F := P * Q

/-- The verifier's statement-polynomial loop (`babysnark.py` lines
217-219) with its Python subscripts `a[k]` and `Us[k]` made explicit:
the loop raises IndexError when the global `a` or the list `Us` is
shorter than the global `n_stmt`. -/
def vsSumM (Us : List (List F)) (g_a : List F) (g_n_stmt : Nat) :
    Except PyErr (List F) :=
  (List.range g_n_stmt).foldlM (fun acc k => do
    let ak ← pyIdx g_a k
    let uk ← pyIdx Us k
    pure (padd acc (pscale ak uk))) []

/-- Multi-scalar sum `sum([basis[i] * cs[i] for i in range(cnt)], G*0)`
in discrete-log form (`babysnark.py` lines 178-182, 211, 221). -/
def msum (basis cs : List F) (cnt : Nat) : Except PyErr F :=
  (List.range cnt).foldlM (fun acc i => do
    let b ← pyIdx basis i
    let c ← pyIdx cs i
    pure (acc + b * c)) 0

/-- The prover's blinding sum
`sum([bUis[k - n_stmt] * a[k] for k in range(n_stmt, n)], G*0)`
(`babysnark.py` line 186) in discrete-log form. -/
def bwSum (bUis a : List F) (n_stmt n : Nat) : Except PyErr F :=
  (List.range' n_stmt (n - n_stmt)).foldlM (fun acc k => do
    let b ← pyIdx bUis (k - n_stmt)
    let ak ← pyIdx a k
    pure (acc + b * ak)) 0

/-- `babysnark_setup` (`babysnark.py` lines 119-140).  `n` is the column
count `U.shape[1]`; `rng i` is the `i`-th field element drawn from the
randomness source, so `tau = rng 0`, `beta = rng 1`, `gamma = rng 2` in
sampling order.  The CRS is returned in discrete-log form together with
the post-call values of the module globals `tau`, `beta`, `gamma`. -/
def babysnark_setup (n : Nat) (U : List (List F)) (n_stmt : Nat) (rng : Nat → F) :
    Except PyErr (List F × TrapdoorGlobals F) :=
  let m := U.length
  if n_stmt < n then
    let Us := UsOf U n
    let tau := rng 0
    let beta := rng 1
    let gamma := rng 2
    let CRS := ((List.range (m + 1)).map (fun i => tau ^ i)) ++ [gamma, beta * gamma]
        ++ ((Us.drop n_stmt).map (fun u => beta * peval u tau))
    .ok (CRS, ⟨some tau, some beta, some gamma⟩)
  else .error (.assertFail 121)

/-- `babysnark_prover` (`babysnark.py` lines 143-194): the two
precondition asserts (lines 145-146), the polynomial construction, the
division with the three protocol asserts (lines 173-175) and the three
commitment sums, returning the proof `(H, Bw, Vw)`. -/
def babysnark_prover (n : Nat) (U : List (List F)) (n_stmt : Nat) (CRS : List F)
    (a : List F) : Except PyErr (F × F × F) :=
  let m := U.length
  if n = a.length then
    if (CRS.length : Int) = (m + 1) + 2 + ((n : Int) - (n_stmt : Int)) then
      let taus := CRS.take (m + 1)
      let bUis := pySliceFrom CRS (-((n : Int) - (n_stmt : Int)))
      let t : List F := tOf m
      let vw := vwOf U n n_stmt a
      let p := pOf U n n_stmt a
      let hq := (pdivmod p t).1
      if p = pmul t hq then
        if vw.length = m then
          if hq.length ≤ m then do
            let H ← msum taus hq hq.length
            let Vw ← msum taus vw m
            let Bw ← bwSum bUis a n_stmt n
            pure (H, Bw, Vw)
          else .error (.assertFail 175)
        else .error (.assertFail 174)
      else .error (.assertFail 173)
    else .error (.assertFail 146)
  else .error (.assertFail 145)

/-- `babysnark_verifier` (`babysnark.py` lines 198-232).  `g_n_stmt` and
`g_a` are the values of the module-level globals `n_stmt` and `a` that
the source reads at lines 206 and 218-219; the `a_stmt` parameter is
bound but never used by the source, exactly as here.  Both pairing
checks are Python asserts, so a mismatch raises rather than returning a
boolean. -/
def babysnark_verifier (n : Nat) (U : List (List F)) (CRS : List F) (a_stmt : List F)
    (pi : F × F × F) (g_n_stmt : Nat) (g_a : List F) : Except PyErr Bool := do
  let m := U.length
  let H := pi.1
  let Bw := pi.2.1
  let Vw := pi.2.2
  let taus := CRS.take (m + 1)
  let gammaL ← pyIdx CRS (m + 1)
  let gammabeta ← pyIdx CRS (m + 2)
  let _bUis := pySliceFrom CRS (-((n : Int) - (g_n_stmt : Int)))
  let t : List F := tOf m
  let T ← msum taus t (m + 1)
  let vs ← vsSumM (UsOf U n) g_a g_n_stmt
  let Vs ← msum taus vs m
  let V := Vs + Vw
  if pair Bw gammaL = pair Vw gammabeta then
    if pair H T + 1 = pair V V then pure true
    else .error (.assertFail 230)
  else .error (.assertFail 226)

/-- The end-to-end flow of the source's script section (`babysnark.py`
lines 246-257): setup, then the prover on the full witness, then the
verifier on the statement slice `a[:n_stmt]` - with the module globals
`n_stmt` and `a` holding the same values the script set. -/
def script_run (n : Nat) (U : List (List F)) (n_stmt : Nat) (a : List F)
    (rng : Nat → F) : Except PyErr Bool := do
  let sg ← babysnark_setup n U n_stmt rng
  let pi ← babysnark_prover n U n_stmt sg.1 a
  babysnark_verifier n U sg.1 (a.take n_stmt) pi n_stmt a

/-- The CRS list a successful setup returns (`babysnark.py` lines
137-139), in discrete-log form: the m+1 tau powers, then gamma and
beta*gamma, then one beta-blinded column evaluation per witness-only
column. -/
def crsOf (n : Nat) (U : List (List F)) (n_stmt : Nat) (rng : Nat → F) : List F :=
  ((List.range (U.length + 1)).map (fun i => rng 0 ^ i)) ++ [rng 2, rng 1 * rng 2]
    ++ (((UsOf U n).drop n_stmt).map (fun u => rng 1 * peval u (rng 0)))

/-! ### Normal-form (trim) lemmas -/

theorem trim_getD (l : List F) (i : Nat) : (trim l).getD i 0 = l.getD i 0 := by
  induction l generalizing i with
  | nil => rfl
  | cons c cs ih =>
    simp only [trim]
    cases h : trim cs with
    | nil =>
      cases i with
      | zero =>
        by_cases hc : c = 0 <;> simp [hc]
      | succ i =>
        have hi := ih i
        rw [h] at hi
        have hz : cs.getD i 0 = 0 := by simpa using hi.symm
        rw [List.getD_eq_getElem?_getD] at hz
        by_cases hc : c = 0 <;> simp [hc, hz]
    | cons d ds =>
      cases i with
      | zero => simp
      | succ i =>
        have hi := ih i
        rw [h] at hi
        simpa using hi

theorem trim_length_le (l : List F) : (trim l).length ≤ l.length := by
  induction l with
  | nil => simp [trim]
  | cons c cs ih =>
    simp only [trim]
    cases h : trim cs with
    | nil =>
      by_cases hc : c = 0 <;> simp [hc]
    | cons d ds =>
      rw [h] at ih
      simpa using ih

theorem trim_getLastD_ne (l : List F) (h : trim l ≠ []) : (trim l).getLastD 0 ≠ 0 := by
  induction l with
  | nil => exact absurd rfl h
  | cons c cs ih =>
    simp only [trim] at h ⊢
    cases h2 : trim cs with
    | nil =>
      rw [h2] at h
      by_cases hc : c = 0
      · simp [hc] at h
      · simpa [hc] using hc
    | cons d ds =>
      rw [h2] at ih
      have := ih (by simp)
      simpa [List.getLastD_cons] using this

theorem trim_of_getLastD (l : List F) (h : l.getLastD 0 ≠ 0) : trim l = l := by
  induction l with
  | nil => exact absurd rfl h
  | cons c cs ih =>
    cases cs with
    | nil =>
      have hc : c ≠ 0 := by simpa using h
      simp [trim, hc]
    | cons d ds =>
      have hlast : (d :: ds).getLastD 0 ≠ 0 := by
        simpa [List.getLastD_cons] using h
      have ht := ih hlast
      calc trim (c :: d :: ds)
          = match trim (d :: ds) with
            | [] => if c = 0 then [] else [c]
            | e :: es => c :: e :: es := rfl
        _ = c :: d :: ds := by rw [ht]

theorem trim_trim (l : List F) : trim (trim l) = trim l := by
  cases h : trim l with
  | nil => rfl
  | cons d ds =>
    apply trim_of_getLastD
    have := trim_getLastD_ne l (by rw [h]; simp)
    rwa [h] at this

/-! ### The bridge to Mathlib polynomials -/

theorem toP_coeff (l : List F) (i : Nat) : (toP l).coeff i = l.getD i 0 := by
  induction l generalizing i with
  | nil => simp [toP]
  | cons c cs ih =>
    cases i with
    | zero => simp [toP]
    | succ i => simp [toP, Polynomial.coeff_mul_X, ih]

theorem toP_trim (l : List F) : toP (trim l) = toP l := by
  apply Polynomial.ext
  intro i
  rw [toP_coeff, toP_coeff, trim_getD]

theorem getLastD_eq_getD (l : List F) : l.getLastD 0 = l.getD (l.length - 1) 0 := by
  induction l with
  | nil => rfl
  | cons x xs ih =>
    cases xs with
    | nil => rfl
    | cons y ys =>
      have h1 : (x :: y :: ys).getLastD 0 = (y :: ys).getLastD 0 := by
        simp [List.getLastD_cons]
      rw [h1, ih]
      simp

theorem trim_cons_self (x : F) (xs : List F) (h : trim (x :: xs) = x :: xs) :
    trim xs = xs := by
  cases xs with
  | nil => rfl
  | cons y ys =>
    apply trim_of_getLastD
    have hne : (trim (x :: y :: ys)).getLastD 0 ≠ 0 := trim_getLastD_ne _ (by rw [h]; simp)
    rw [h] at hne
    simpa [List.getLastD_cons] using hne

theorem getD_ext_trim (a b : List F) (ha : trim a = a) (hb : trim b = b)
    (h : ∀ i, a.getD i 0 = b.getD i 0) : a = b := by
  induction a generalizing b with
  | nil =>
    cases b with
    | nil => rfl
    | cons x xs =>
      exfalso
      have hne : (trim (x :: xs)).getLastD 0 ≠ 0 := trim_getLastD_ne _ (by rw [hb]; simp)
      rw [hb, getLastD_eq_getD] at hne
      exact hne (((h _).symm).trans (by simp))
  | cons x xs ih =>
    cases b with
    | nil =>
      exfalso
      have hne : (trim (x :: xs)).getLastD 0 ≠ 0 := trim_getLastD_ne _ (by rw [ha]; simp)
      rw [ha, getLastD_eq_getD] at hne
      exact hne ((h _).trans (by simp))
    | cons y ys =>
      have hx : x = y := by simpa using h 0
      have htail := ih ys (trim_cons_self x xs ha) (trim_cons_self y ys hb)
        (fun i => by simpa using h (i + 1))
      rw [hx, htail]

theorem toP_inj (a b : List F) (ha : trim a = a) (hb : trim b = b)
    (h : toP a = toP b) : a = b :=
  getD_ext_trim a b ha hb fun i => by
    rw [← toP_coeff, ← toP_coeff, h]

theorem toP_eq_zero (l : List F) (hl : trim l = l) (h : toP l = 0) : l = [] :=
  toP_inj l [] hl rfl (by simpa [toP] using h)

/-! ### Homomorphism lemmas of the list operations through toP -/

theorem toP_addRaw (l1 l2 : List F) : toP (addRaw l1 l2) = toP l1 + toP l2 := by
  induction l1 generalizing l2 with
  | nil => simp [addRaw, toP]
  | cons a t1 ih =>
    cases l2 with
    | nil => simp [addRaw, toP]
    | cons b t2 =>
      simp [addRaw, toP, ih]
      ring

theorem toP_mapNeg (l : List F) : toP (l.map (fun b => -b)) = -toP l := by
  induction l with
  | nil => simp [toP]
  | cons a t ih =>
    simp [toP, ih]
    ring

theorem toP_subRaw (l1 l2 : List F) : toP (subRaw l1 l2) = toP l1 - toP l2 := by
  induction l1 generalizing l2 with
  | nil => simp [subRaw, toP, toP_mapNeg]
  | cons a t1 ih =>
    cases l2 with
    | nil => simp [subRaw, toP]
    | cons b t2 =>
      simp [subRaw, toP, ih]
      ring

theorem toP_mapMul (c : F) (l : List F) :
    toP (l.map (fun b => c * b)) = Polynomial.C c * toP l := by
  induction l with
  | nil => simp [toP]
  | cons a t ih =>
    simp [toP, ih]
    ring

theorem toP_mulRaw (l1 l2 : List F) : toP (mulRaw l1 l2) = toP l1 * toP l2 := by
  induction l1 with
  | nil => simp [mulRaw, toP]
  | cons a t1 ih =>
    simp [mulRaw, toP, toP_addRaw, toP_mapMul, ih]
    ring

theorem toP_padd (l1 l2 : List F) : toP (padd l1 l2) = toP l1 + toP l2 := by
  rw [padd, toP_trim, toP_addRaw]

theorem toP_psub (l1 l2 : List F) : toP (psub l1 l2) = toP l1 - toP l2 := by
  rw [psub, toP_trim, toP_subRaw]

theorem toP_pmul (l1 l2 : List F) : toP (pmul l1 l2) = toP l1 * toP l2 := by
  rw [pmul, toP_trim, toP_mulRaw]

theorem toP_pscale (c : F) (l : List F) : toP (pscale c l) = Polynomial.C c * toP l := by
  rw [pscale, toP_trim, toP_mapMul]

theorem peval_toP (l : List F) (x : F) : peval l x = (toP l).eval x := by
  induction l with
  | nil => simp [peval, toP]
  | cons c t ih =>
    show c + x * peval t x = _
    simp [toP, ih]
    ring

/-! ### Length lemmas of the list operations -/

theorem length_addRaw (l1 l2 : List F) :
    (addRaw l1 l2).length = max l1.length l2.length := by
  induction l1 generalizing l2 with
  | nil => simp [addRaw]
  | cons a t1 ih =>
    cases l2 with
    | nil => simp [addRaw]
    | cons b t2 =>
      simp [addRaw, ih]
      omega

theorem length_subRaw (l1 l2 : List F) :
    (subRaw l1 l2).length = max l1.length l2.length := by
  induction l1 generalizing l2 with
  | nil => simp [subRaw]
  | cons a t1 ih =>
    cases l2 with
    | nil => simp [subRaw]
    | cons b t2 =>
      simp [subRaw, ih]
      omega

theorem length_mulRaw (l1 l2 : List F) (h1 : l1 ≠ []) (h2 : l2 ≠ []) :
    (mulRaw l1 l2).length = l1.length + l2.length - 1 := by
  induction l1 with
  | nil => exact absurd rfl h1
  | cons a t1 ih =>
    have hl2 : 1 ≤ l2.length := List.length_pos.mpr h2
    cases t1 with
    | nil =>
      simp [mulRaw, length_addRaw]
      omega
    | cons b t1a =>
      have := ih (by simp)
      simp [mulRaw, length_addRaw] at this ⊢
      omega

theorem mulRaw_nil_right (l1 : List F) : mulRaw l1 [] = List.replicate l1.length 0 := by
  induction l1 with
  | nil => rfl
  | cons a t ih => simp [mulRaw, addRaw, ih, List.replicate_succ]

theorem trim_replicate_zero (n : Nat) : trim (List.replicate n (0 : F)) = [] := by
  induction n with
  | zero => rfl
  | succ n ih => simp [List.replicate_succ, trim, ih]

theorem padd_length_le (l1 l2 : List F) :
    (padd l1 l2).length ≤ max l1.length l2.length := by
  rw [padd, ← length_addRaw l1 l2]
  exact trim_length_le _

theorem psub_length_le (l1 l2 : List F) :
    (psub l1 l2).length ≤ max l1.length l2.length := by
  rw [psub, ← length_subRaw l1 l2]
  exact trim_length_le _

theorem pscale_length_le (c : F) (l : List F) : (pscale c l).length ≤ l.length := by
  rw [pscale]
  calc (trim (l.map (fun b => c * b))).length ≤ (l.map (fun b => c * b)).length :=
        trim_length_le _
    _ = l.length := List.length_map _ _

theorem pmul_length_le (l1 l2 : List F) :
    (pmul l1 l2).length ≤ l1.length + l2.length - 1 := by
  rcases eq_or_ne l1 [] with h1 | h1
  · subst h1
    simp [pmul, mulRaw, trim]
  · rcases eq_or_ne l2 [] with h2 | h2
    · subst h2
      rw [pmul, mulRaw_nil_right, trim_replicate_zero]
      simp
    · rw [pmul, ← length_mulRaw l1 l2 h1 h2]
      exact trim_length_le _

/-! ### Degrees and lengths of trimmed lists -/

theorem degree_toP_lt (l : List F) : (toP l).degree < (l.length : Nat) := by
  rw [Polynomial.degree_lt_iff_coeff_zero]
  intro m hm
  rw [toP_coeff]
  apply List.getD_eq_default
  exact_mod_cast hm

theorem toP_ne_zero (l : List F) (hl : trim l = l) (h : l ≠ []) : toP l ≠ 0 :=
  fun h0 => h (toP_eq_zero l hl h0)

theorem trimmed_getLastD_ne (l : List F) (hl : trim l = l) (h : l ≠ []) :
    l.getLastD 0 ≠ 0 := by
  have := trim_getLastD_ne l (by rw [hl]; exact h)
  rwa [hl] at this

theorem natDegree_toP (l : List F) (hl : trim l = l) (h : l ≠ []) :
    (toP l).natDegree = l.length - 1 := by
  have hne := toP_ne_zero l hl h
  have hpos : 1 ≤ l.length := List.length_pos.mpr h
  apply le_antisymm
  · have hd : (toP l).natDegree < l.length :=
      (Polynomial.natDegree_lt_iff_degree_lt hne).mpr (degree_toP_lt l)
    omega
  · apply Polynomial.le_natDegree_of_ne_zero
    rw [toP_coeff, ← getLastD_eq_getD]
    exact trimmed_getLastD_ne l hl h

theorem length_of_trimmed (l : List F) (hl : trim l = l) (h : l ≠ []) :
    l.length = (toP l).natDegree + 1 := by
  have := natDegree_toP l hl h
  have hpos : 1 ≤ l.length := List.length_pos.mpr h
  omega

theorem trimmed_nil_iff (l : List F) (hl : trim l = l) : l = [] ↔ toP l = 0 := by
  constructor
  · intro h
    subst h
    rfl
  · exact toP_eq_zero l hl

/-! ### Correctness of the Euclidean division loop -/

theorem toP_replicate_append (k : Nat) (c : F) :
    toP (List.replicate k 0 ++ [c]) = Polynomial.C c * Polynomial.X ^ k := by
  induction k with
  | zero => simp [toP]
  | succ k ih =>
    rw [List.replicate_succ]
    show toP (0 :: (List.replicate k 0 ++ [c])) = _
    simp [toP, ih]
    ring

theorem leadingCoeff_toP (l : List F) (hl : trim l = l) (h : l ≠ []) :
    (toP l).leadingCoeff = l.getLastD 0 := by
  rw [Polynomial.leadingCoeff, natDegree_toP l hl h, toP_coeff, ← getLastD_eq_getD]

theorem degree_toP_trimmed (l : List F) (hl : trim l = l) (h : l ≠ []) :
    (toP l).degree = ((l.length - 1 : Nat) : WithBot Nat) := by
  rw [Polynomial.degree_eq_natDegree (toP_ne_zero l hl h), natDegree_toP l hl h]

theorem padd_trimmed (l1 l2 : List F) : trim (padd l1 l2) = padd l1 l2 := trim_trim _

theorem psub_trimmed (l1 l2 : List F) : trim (psub l1 l2) = psub l1 l2 := trim_trim _

theorem pmul_trimmed (l1 l2 : List F) : trim (pmul l1 l2) = pmul l1 l2 := trim_trim _

theorem pscale_trimmed (c : F) (l : List F) : trim (pscale c l) = pscale c l := trim_trim _

theorem div_step_length (b r : List F) (hb : trim b = b) (hbne : b ≠ [])
    (hr : trim r = r) (hge : b.length ≤ r.length) :
    (psub r (pmul (List.replicate (r.length - b.length) 0 ++
      [r.getLastD 0 / b.getLastD 0]) b)).length < r.length := by
  have hrne : r ≠ [] := by
    intro h
    subst h
    exact hbne (List.length_eq_zero.mp (Nat.le_zero.mp hge))
  have hrpos : 1 ≤ r.length := List.length_pos.mpr hrne
  have hbpos : 1 ≤ b.length := List.length_pos.mpr hbne
  have hlb : b.getLastD 0 ≠ 0 := trimmed_getLastD_ne b hb hbne
  have hlr : r.getLastD 0 ≠ 0 := trimmed_getLastD_ne r hr hrne
  have hc : r.getLastD 0 / b.getLastD 0 ≠ 0 := div_ne_zero hlr hlb
  have hsub : toP (psub r (pmul (List.replicate (r.length - b.length) 0 ++
      [r.getLastD 0 / b.getLastD 0]) b)) =
      toP r - Polynomial.C (r.getLastD 0 / b.getLastD 0) *
        Polynomial.X ^ (r.length - b.length) * toP b := by
    rw [toP_psub, toP_pmul, toP_replicate_append]
  have hdeq : (Polynomial.C (r.getLastD 0 / b.getLastD 0) *
      Polynomial.X ^ (r.length - b.length) * toP b).degree = (toP r).degree := by
    rw [Polynomial.degree_mul, Polynomial.degree_mul, Polynomial.degree_C hc,
      Polynomial.degree_X_pow, degree_toP_trimmed b hb hbne, degree_toP_trimmed r hr hrne,
      zero_add, ← Nat.cast_add]
    have he : r.length - b.length + (b.length - 1) = r.length - 1 := by omega
    rw [he]
  have hlceq : (toP r).leadingCoeff = (Polynomial.C (r.getLastD 0 / b.getLastD 0) *
      Polynomial.X ^ (r.length - b.length) * toP b).leadingCoeff := by
    rw [Polynomial.leadingCoeff_mul, Polynomial.leadingCoeff_mul,
      Polynomial.leadingCoeff_C, Polynomial.leadingCoeff_X_pow,
      leadingCoeff_toP b hb hbne, leadingCoeff_toP r hr hrne, mul_one,
      div_mul_cancel₀ _ hlb]
  have hdlt : (toP (psub r (pmul (List.replicate (r.length - b.length) 0 ++
      [r.getLastD 0 / b.getLastD 0]) b))).degree < (toP r).degree := by
    rw [hsub]
    exact Polynomial.degree_sub_lt hdeq.symm (toP_ne_zero r hr hrne) hlceq
  rcases eq_or_ne (psub r (pmul (List.replicate (r.length - b.length) 0 ++
      [r.getLastD 0 / b.getLastD 0]) b)) [] with hnil | hnil
  · rw [hnil]
    simpa using hrpos
  · have htr := psub_trimmed r (pmul (List.replicate (r.length - b.length) 0 ++
      [r.getLastD 0 / b.getLastD 0]) b)
    have hlen := length_of_trimmed _ htr hnil
    have hne2 := toP_ne_zero _ htr hnil
    have hnd : (toP (psub r (pmul (List.replicate (r.length - b.length) 0 ++
        [r.getLastD 0 / b.getLastD 0]) b))).natDegree < r.length - 1 := by
      apply (Polynomial.natDegree_lt_iff_degree_lt hne2).mpr
      rw [← degree_toP_trimmed r hr hrne]
      exact hdlt
    rw [hlen]
    omega

theorem pdivmodAux_stop (b : List F) (fuel : Nat) (q r : List F)
    (h : r.length < b.length) : pdivmodAux b (fuel + 1) q r = (q, r) := by
  rw [pdivmodAux]
  simp [h]

theorem pdivmodAux_step (b : List F) (fuel : Nat) (q r : List F)
    (h : ¬ r.length < b.length) :
    pdivmodAux b (fuel + 1) q r =
      pdivmodAux b fuel
        (padd q (List.replicate (r.length - b.length) 0 ++ [r.getLastD 0 / b.getLastD 0]))
        (psub r (pmul (List.replicate (r.length - b.length) 0 ++
          [r.getLastD 0 / b.getLastD 0]) b)) := by
  rw [pdivmodAux]
  simp [h]

theorem pdivmodAux_spec (b : List F) (hb : trim b = b) (hbne : b ≠ []) :
    ∀ (fuel : Nat) (q r : List F), trim q = q → trim r = r → r.length ≤ fuel →
      toP (pdivmodAux b fuel q r).1 * toP b + toP (pdivmodAux b fuel q r).2
          = toP q * toP b + toP r
      ∧ (pdivmodAux b fuel q r).2.length < b.length
      ∧ trim (pdivmodAux b fuel q r).1 = (pdivmodAux b fuel q r).1
      ∧ trim (pdivmodAux b fuel q r).2 = (pdivmodAux b fuel q r).2
      ∧ (pdivmodAux b fuel q r).1.length ≤ max q.length (r.length + 1 - b.length) := by
  have hbpos : 1 ≤ b.length := List.length_pos.mpr hbne
  intro fuel
  induction fuel with
  | zero =>
    intro q r hq hr hf
    have hre : r = [] := List.length_eq_zero.mp (Nat.le_zero.mp hf)
    subst hre
    show _ ∧ ([] : List F).length < b.length ∧ _ ∧ _ ∧ _
    exact ⟨rfl, by simpa using hbpos, hq, rfl, le_max_left _ _⟩
  | succ fuel ih =>
    intro q r hq hr hf
    by_cases hlt : r.length < b.length
    · rw [pdivmodAux_stop b fuel q r hlt]
      exact ⟨rfl, hlt, hq, hr, le_max_left _ _⟩
    · rw [pdivmodAux_step b fuel q r hlt]
      have hge : b.length ≤ r.length := not_lt.mp hlt
      have hlen := div_step_length b r hb hbne hr hge
      have hmlen : (List.replicate (r.length - b.length) 0 ++
          [r.getLastD 0 / b.getLastD 0]).length = r.length - b.length + 1 := by simp
      obtain ⟨e1, e2, e3, e4, e5⟩ := ih
        (padd q (List.replicate (r.length - b.length) 0 ++ [r.getLastD 0 / b.getLastD 0]))
        (psub r (pmul (List.replicate (r.length - b.length) 0 ++
          [r.getLastD 0 / b.getLastD 0]) b))
        (padd_trimmed _ _) (psub_trimmed _ _) (by omega)
      refine ⟨?_, e2, e3, e4, ?_⟩
      · rw [e1, toP_padd, toP_psub, toP_pmul, toP_replicate_append]
        ring
      · refine e5.trans ?_
        have h1 := padd_length_le q (List.replicate (r.length - b.length) 0 ++
          [r.getLastD 0 / b.getLastD 0])
        rw [hmlen] at h1
        omega

theorem pdivmod_spec (p b : List F) (hb : trim b = b) (hbne : b ≠ []) (hp : trim p = p) :
    toP (pdivmod p b).1 * toP b + toP (pdivmod p b).2 = toP p
    ∧ (pdivmod p b).2.length < b.length
    ∧ trim (pdivmod p b).1 = (pdivmod p b).1
    ∧ trim (pdivmod p b).2 = (pdivmod p b).2
    ∧ (pdivmod p b).1.length ≤ p.length + 1 - b.length := by
  obtain ⟨e1, e2, e3, e4, e5⟩ := pdivmodAux_spec b hb hbne p.length [] p rfl hp le_rfl
  rw [pdivmod]
  refine ⟨?_, e2, e3, e4, ?_⟩
  · rw [e1]
    show toP [] * toP b + toP p = toP p
    simp [toP]
  · simpa using e5

theorem pdivmod_rem_nil_iff (p b : List F) (hb : trim b = b) (hbne : b ≠ [])
    (hp : trim p = p) : (pdivmod p b).2 = [] ↔ toP b ∣ toP p := by
  obtain ⟨e1, e2, _, e4, _⟩ := pdivmod_spec p b hb hbne hp
  constructor
  · intro h
    rw [h] at e1
    have e1b : toP (pdivmod p b).1 * toP b = toP p := by
      have hz : toP ([] : List F) = 0 := rfl
      rwa [hz, add_zero] at e1
    exact ⟨toP (pdivmod p b).1, by rw [← e1b]; ring⟩
  · intro hdvd
    have hrem : toP b ∣ toP (pdivmod p b).2 := by
      have h3 : toP (pdivmod p b).2 = toP p - toP (pdivmod p b).1 * toP b := by
        rw [← e1]
        ring
      rw [h3]
      exact dvd_sub hdvd (dvd_mul_left _ _)
    have hdeg : (toP (pdivmod p b).2).degree < (toP b).degree := by
      calc (toP (pdivmod p b).2).degree < ((pdivmod p b).2.length : Nat) := degree_toP_lt _
        _ ≤ ((b.length - 1 : Nat) : WithBot Nat) := by exact_mod_cast Nat.le_sub_one_of_lt e2
        _ = (toP b).degree := (degree_toP_trimmed b hb hbne).symm
    have hz : toP (pdivmod p b).2 = 0 := Polynomial.eq_zero_of_dvd_of_degree_lt hrem hdeg
    exact toP_eq_zero _ e4 hz

theorem pdivmod_exact_iff (p b : List F) (hb : trim b = b) (hbne : b ≠ [])
    (hp : trim p = p) : (pdivmod p b).2 = [] ↔ p = pmul b (pdivmod p b).1 := by
  obtain ⟨e1, _, e3, e4, _⟩ := pdivmod_spec p b hb hbne hp
  constructor
  · intro h
    rw [h] at e1
    have e1b : toP (pdivmod p b).1 * toP b = toP p := by
      have hz : toP ([] : List F) = 0 := rfl
      rwa [hz, add_zero] at e1
    apply toP_inj p (pmul b (pdivmod p b).1) hp (pmul_trimmed _ _)
    rw [toP_pmul, ← e1b]
    ring
  · intro h
    have h2 := congrArg toP h
    rw [toP_pmul] at h2
    have h3 : toP (pdivmod p b).2 = toP p - toP (pdivmod p b).1 * toP b := by
      rw [← e1]
      ring
    have hz : toP (pdivmod p b).2 = 0 := by
      rw [h3, h2]
      ring
    exact toP_eq_zero _ e4 hz

/-! ### The vanishing polynomial -/

theorem toP_linear (s : F) : toP [-s, 1] = Polynomial.X - Polynomial.C s := by
  simp [toP]
  ring

theorem toP_vanishing_fold (S : List F) (acc : List F) :
    toP (S.foldl (fun p s => pmul p [-s, 1]) acc) =
      toP acc * (S.map (fun s => Polynomial.X - Polynomial.C s)).prod := by
  induction S generalizing acc with
  | nil => simp
  | cons s ss ih =>
    simp only [List.foldl_cons, List.map_cons, List.prod_cons]
    rw [ih, toP_pmul, toP_linear]
    ring

theorem toP_vanishing (S : List F) :
    toP (vanishing_poly S) = (S.map (fun s => Polynomial.X - Polynomial.C s)).prod := by
  rw [vanishing_poly, toP_vanishing_fold]
  have h1 : toP [(1 : F)] = 1 := by
    simp [toP]
  rw [h1, one_mul]

theorem monic_linear_prod (S : List F) :
    ((S.map (fun s => Polynomial.X - Polynomial.C s)).prod).Monic := by
  induction S with
  | nil => simpa using Polynomial.monic_one
  | cons s ss ih =>
    simp only [List.map_cons, List.prod_cons]
    exact (Polynomial.monic_X_sub_C s).mul ih

theorem natDegree_linear_prod (S : List F) :
    ((S.map (fun s => Polynomial.X - Polynomial.C s)).prod).natDegree = S.length := by
  induction S with
  | nil => simp
  | cons s ss ih =>
    simp only [List.map_cons, List.prod_cons]
    rw [(Polynomial.monic_X_sub_C s).natDegree_mul (monic_linear_prod ss),
      Polynomial.natDegree_X_sub_C, ih, List.length_cons]
    omega

theorem vanishing_trimmed (S : List F) : trim (vanishing_poly S) = vanishing_poly S := by
  rw [vanishing_poly]
  have key : ∀ acc : List F, trim acc = acc →
      trim (S.foldl (fun p s => pmul p [-s, 1]) acc) = S.foldl (fun p s => pmul p [-s, 1]) acc := by
    induction S with
    | nil => exact fun acc h => h
    | cons s ss ih => exact fun acc _ => ih _ (pmul_trimmed _ _)
  apply key
  simp [trim]

theorem vanishing_ne_nil (S : List F) : vanishing_poly S ≠ [] := by
  intro h
  have := (trimmed_nil_iff (vanishing_poly S) (vanishing_trimmed S)).mp h
  rw [toP_vanishing] at this
  exact (monic_linear_prod S).ne_zero this

theorem length_vanishing (S : List F) : (vanishing_poly S).length = S.length + 1 := by
  rw [length_of_trimmed _ (vanishing_trimmed S) (vanishing_ne_nil S), toP_vanishing,
    natDegree_linear_prod]

theorem eval_linear_prod (S : List F) (x : F) :
    ((S.map (fun s => Polynomial.X - Polynomial.C s)).prod).eval x =
      (S.map (fun s => x - s)).prod := by
  induction S with
  | nil => simp
  | cons s ss ih => simp [ih]

theorem peval_vanishing (S : List F) (x : F) :
    peval (vanishing_poly S) x = (S.map (fun s => x - s)).prod := by
  rw [peval_toP, toP_vanishing, eval_linear_prod]

theorem peval_vanishing_root (S : List F) (x : F) (hx : x ∈ S) :
    peval (vanishing_poly S) x = 0 := by
  rw [peval_vanishing]
  exact List.prod_eq_zero (List.mem_map.mpr ⟨x, hx, sub_self x⟩)

theorem linear_prod_dvd (S : List F) (q : Polynomial F) (hnd : S.Nodup)
    (hroot : ∀ s ∈ S, q.eval s = 0) :
    (S.map (fun s => Polynomial.X - Polynomial.C s)).prod ∣ q := by
  induction S generalizing q with
  | nil => simp
  | cons s ss ih =>
    have h1 : (Polynomial.X - Polynomial.C s) ∣ q :=
      Polynomial.dvd_iff_isRoot.mpr (hroot s (by simp))
    obtain ⟨q2, hq2⟩ := h1
    have hroot2 : ∀ t ∈ ss, q2.eval t = 0 := by
      intro t ht
      have hts : t ≠ s := by
        intro he
        subst he
        exact (List.nodup_cons.mp hnd).1 ht
      have he := hroot t (by simp [ht])
      rw [hq2] at he
      simp only [Polynomial.eval_mul, Polynomial.eval_sub, Polynomial.eval_X,
        Polynomial.eval_C] at he
      rcases mul_eq_zero.mp he with h | h
      · exact absurd (sub_eq_zero.mp h) hts
      · exact h
    have hd := ih q2 (List.nodup_cons.mp hnd).2 hroot2
    rw [hq2]
    simp only [List.map_cons, List.prod_cons]
    exact mul_dvd_mul_left _ hd

/-! ### Evaluation homomorphisms and folded linear combinations -/

theorem peval_padd (l1 l2 : List F) (x : F) :
    peval (padd l1 l2) x = peval l1 x + peval l2 x := by
  rw [peval_toP, toP_padd, Polynomial.eval_add, peval_toP, peval_toP]

theorem peval_psub (l1 l2 : List F) (x : F) :
    peval (psub l1 l2) x = peval l1 x - peval l2 x := by
  rw [peval_toP, toP_psub, Polynomial.eval_sub, peval_toP, peval_toP]

theorem peval_pmul (l1 l2 : List F) (x : F) :
    peval (pmul l1 l2) x = peval l1 x * peval l2 x := by
  rw [peval_toP, toP_pmul, Polynomial.eval_mul, peval_toP, peval_toP]

theorem peval_pscale (c : F) (l : List F) (x : F) :
    peval (pscale c l) x = c * peval l x := by
  rw [peval_toP, toP_pscale, Polynomial.eval_mul, Polynomial.eval_C, peval_toP]

theorem peval_nil (x : F) : peval ([] : List F) x = 0 := rfl

theorem toP_foldl_scale (L : List Nat) (w : Nat → F) (P : Nat → List F) (init : List F) :
    toP (L.foldl (fun acc k => padd acc (pscale (w k) (P k))) init) =
      toP init + (L.map (fun k => Polynomial.C (w k) * toP (P k))).sum := by
  induction L generalizing init with
  | nil => simp
  | cons k ks ih =>
    simp only [List.foldl_cons, List.map_cons, List.sum_cons]
    rw [ih, toP_padd, toP_pscale]
    ring

theorem peval_foldl_scale (L : List Nat) (w : Nat → F) (P : Nat → List F) (init : List F)
    (x : F) :
    peval (L.foldl (fun acc k => padd acc (pscale (w k) (P k))) init) x =
      peval init x + (L.map (fun k => w k * peval (P k) x)).sum := by
  induction L generalizing init with
  | nil => simp
  | cons k ks ih =>
    simp only [List.foldl_cons, List.map_cons, List.sum_cons]
    rw [ih, peval_padd, peval_pscale]
    ring

theorem foldl_scale_trimmed (L : List Nat) (w : Nat → F) (P : Nat → List F) (init : List F)
    (hinit : trim init = init) :
    trim (L.foldl (fun acc k => padd acc (pscale (w k) (P k))) init) =
      L.foldl (fun acc k => padd acc (pscale (w k) (P k))) init := by
  induction L generalizing init with
  | nil => exact hinit
  | cons k ks ih => exact ih _ (padd_trimmed _ _)

theorem foldl_scale_length_le (L : List Nat) (w : Nat → F) (P : Nat → List F)
    (init : List F) (m : Nat) (hinit : init.length ≤ m)
    (hP : ∀ k ∈ L, (P k).length ≤ m) :
    (L.foldl (fun acc k => padd acc (pscale (w k) (P k))) init).length ≤ m := by
  induction L generalizing init with
  | nil => exact hinit
  | cons k ks ih =>
    apply ih
    · show (padd init (pscale (w k) (P k))).length ≤ m
      have h1 := padd_length_le init (pscale (w k) (P k))
      have h2 := pscale_length_le (w k) (P k)
      have h3 := hP k (by simp)
      omega
    · exact fun k2 hk2 => hP k2 (by simp [hk2])

theorem sum_map_range {M : Type} [AddCommMonoid M] (n : Nat) (f : Nat → M) :
    ((List.range n).map f).sum = ∑ i ∈ Finset.range n, f i := by
  induction n with
  | zero => simp
  | succ n ih =>
    rw [List.range_succ, List.map_append, List.sum_append, Finset.sum_range_succ, ih]
    simp

/-! ### Lagrange interpolation -/

theorem mem_eraseIdx_of_ne (xs : List F) (i j : Nat) (hj : j < xs.length) (hne : j ≠ i) :
    xs.getD j 0 ∈ xs.eraseIdx i := by
  rw [List.getD_eq_getElem xs 0 hj, List.eraseIdx_eq_take_drop_succ]
  apply List.mem_append.mpr
  rcases lt_or_gt_of_ne hne with h | h
  · left
    have hlen : j < (List.take i xs).length := by
      rw [List.length_take]
      omega
    have he : (List.take i xs)[j] = xs[j] := List.getElem_take xs
    rw [← he]
    exact List.getElem_mem hlen
  · right
    have hlen : j - (i + 1) < (List.drop (i + 1) xs).length := by
      rw [List.length_drop]
      omega
    have he : (List.drop (i + 1) xs)[j - (i + 1)] = xs[j] := by
      rw [List.getElem_drop]
      congr 1
      omega
    rw [← he]
    exact List.getElem_mem hlen

theorem not_mem_eraseIdx_self (xs : List F) (hnd : xs.Nodup) (i : Nat)
    (hi : i < xs.length) : xs.getD i 0 ∉ xs.eraseIdx i := by
  rw [List.getD_eq_getElem xs 0 hi, List.eraseIdx_eq_take_drop_succ]
  intro hmem
  rcases List.mem_append.mp hmem with h | h
  · obtain ⟨j, hj, he⟩ := List.getElem_of_mem h
    rw [List.getElem_take] at he
    have hj2 : j < i := by
      have := hj
      rw [List.length_take] at this
      omega
    have hji : j < xs.length := by omega
    have := (List.Nodup.getElem_inj_iff hnd).mp he
    omega
  · obtain ⟨j, hj, he⟩ := List.getElem_of_mem h
    rw [List.getElem_drop] at he
    have hj2 : j < xs.length - (i + 1) := by
      have := hj
      rw [List.length_drop] at this
      omega
    have := (List.Nodup.getElem_inj_iff hnd).mp he
    omega

theorem peval_lagrangeBasis (xs : List F) (i : Nat) (x : F) :
    peval (lagrangeBasis xs i) x =
      (((xs.eraseIdx i).map (fun xj => xs.getD i 0 - xj)).prod)⁻¹ *
        ((xs.eraseIdx i).map (fun s => x - s)).prod := by
  rw [lagrangeBasis, peval_pscale, peval_vanishing]

theorem peval_lagrangeBasis_self (xs : List F) (hnd : xs.Nodup) (i : Nat)
    (hi : i < xs.length) : peval (lagrangeBasis xs i) (xs.getD i 0) = 1 := by
  rw [peval_lagrangeBasis]
  have hne : (((xs.eraseIdx i).map (fun xj => xs.getD i 0 - xj)).prod) ≠ 0 := by
    apply List.prod_ne_zero
    intro h0
    obtain ⟨s, hs, he⟩ := List.mem_map.mp h0
    have hse : s = xs.getD i 0 := (sub_eq_zero.mp he).symm
    rw [hse] at hs
    exact not_mem_eraseIdx_self xs hnd i hi hs
  exact inv_mul_cancel₀ hne

theorem peval_lagrangeBasis_other (xs : List F) (i j : Nat) (hj : j < xs.length)
    (hne : j ≠ i) : peval (lagrangeBasis xs i) (xs.getD j 0) = 0 := by
  rw [peval_lagrangeBasis]
  have hz : ((xs.eraseIdx i).map (fun s => xs.getD j 0 - s)).prod = 0 :=
    List.prod_eq_zero (List.mem_map.mpr
      ⟨xs.getD j 0, mem_eraseIdx_of_ne xs i j hj hne, sub_self _⟩)
  rw [hz, mul_zero]

theorem interpolate_trimmed (xs ys : List F) :
    trim (interpolate xs ys) = interpolate xs ys := by
  rw [interpolate]
  exact foldl_scale_trimmed _ _ _ [] rfl

theorem lagrangeBasis_length_le (xs : List F) (k : Nat) (hk : k < xs.length) :
    (lagrangeBasis xs k).length ≤ xs.length := by
  calc (lagrangeBasis xs k).length ≤ (vanishing_poly (xs.eraseIdx k)).length :=
        pscale_length_le _ _
    _ = (xs.eraseIdx k).length + 1 := length_vanishing _
    _ ≤ xs.length := by
        rw [List.length_eraseIdx, if_pos hk]
        omega

theorem interpolate_length_le (xs ys : List F) :
    (interpolate xs ys).length ≤ xs.length := by
  rw [interpolate]
  apply foldl_scale_length_le
  · simp
  · intro k hk
    exact lagrangeBasis_length_le xs k (List.mem_range.mp hk)

theorem peval_interpolate_node (xs ys : List F) (hnd : xs.Nodup) (j : Nat)
    (hj : j < xs.length) :
    peval (interpolate xs ys) (xs.getD j 0) = ys.getD j 0 := by
  rw [interpolate, peval_foldl_scale, peval_nil, zero_add, sum_map_range,
    Finset.sum_eq_single_of_mem j (Finset.mem_range.mpr hj)]
  · rw [peval_lagrangeBasis_self xs hnd j hj, mul_one]
  · intro b hb hbne
    rw [peval_lagrangeBasis_other xs b j hj (Ne.symm hbne), mul_zero]

/-! ### Protocol-level polynomial facts -/

theorem rsOf_length (m : Nat) : (rsOf m : List F).length = m := by
  simp [rsOf]

theorem rsOf_getD (m i : Nat) (hi : i < m) :
    (rsOf m : List F).getD i 0 = ((1 + i : Nat) : F) := by
  have hlen : i < (rsOf m : List F).length := by
    rw [rsOf_length]
    exact hi
  rw [List.getD_eq_getElem _ 0 hlen]
  simp [rsOf]

theorem colOf_length (U : List (List F)) (k : Nat) : (colOf U k).length = U.length := by
  simp [colOf]

theorem colOf_getD (U : List (List F)) (k i : Nat) (hi : i < U.length) :
    (colOf U k).getD i 0 = (U.getD i []).getD k 0 := by
  have hlen : i < (colOf U k).length := by
    rw [colOf_length]
    exact hi
  rw [List.getD_eq_getElem _ 0 hlen, List.getD_eq_getElem _ [] hi]
  simp [colOf]

theorem UsOf_length (U : List (List F)) (n : Nat) : (UsOf U n).length = n := by
  simp [UsOf]

theorem UsOf_getD (U : List (List F)) (n k : Nat) (hk : k < n) :
    (UsOf U n).getD k [] = interpolate (rsOf U.length) (colOf U k) := by
  have hlen : k < (UsOf U n).length := by
    rw [UsOf_length]
    exact hk
  rw [List.getD_eq_getElem _ [] hlen]
  simp [UsOf]

theorem Us_length_le (U : List (List F)) (n k : Nat) :
    ((UsOf U n).getD k []).length ≤ U.length := by
  by_cases hk : k < n
  · rw [UsOf_getD U n k hk]
    calc (interpolate (rsOf U.length) (colOf U k)).length
        ≤ (rsOf U.length : List F).length := interpolate_length_le _ _
      _ = U.length := rsOf_length _
  · rw [List.getD_eq_default]
    · simp
    · rw [UsOf_length]
      omega

theorem Us_trimmed (U : List (List F)) (n k : Nat) :
    trim ((UsOf U n).getD k []) = (UsOf U n).getD k [] := by
  by_cases hk : k < n
  · rw [UsOf_getD U n k hk]
    exact interpolate_trimmed _ _
  · rw [List.getD_eq_default]
    · rfl
    · rw [UsOf_length]
      omega

theorem peval_Us_node (U : List (List F)) (n k i : Nat)
    (hnd : (rsOf U.length : List F).Nodup) (hk : k < n) (hi : i < U.length) :
    peval ((UsOf U n).getD k []) ((rsOf U.length : List F).getD i 0) =
      (U.getD i []).getD k 0 := by
  rw [UsOf_getD U n k hk,
    peval_interpolate_node (rsOf U.length) (colOf U k) hnd i (by rw [rsOf_length]; exact hi),
    colOf_getD U k i hi]

theorem vwOf_trimmed (U : List (List F)) (n n_stmt : Nat) (a : List F) :
    trim (vwOf U n n_stmt a) = vwOf U n n_stmt a := by
  rw [vwOf]
  exact foldl_scale_trimmed _ _ _ [] rfl

theorem vsOf_trimmed (U : List (List F)) (n n_stmt : Nat) (a : List F) :
    trim (vsOf U n n_stmt a) = vsOf U n n_stmt a := by
  rw [vsOf]
  exact foldl_scale_trimmed _ _ _ [] rfl

theorem vOf_trimmed (U : List (List F)) (n n_stmt : Nat) (a : List F) :
    trim (vOf U n n_stmt a) = vOf U n n_stmt a := by
  rw [vOf]
  exact foldl_scale_trimmed _ _ _ _ (vwOf_trimmed U n n_stmt a)

theorem vwOf_length_le (U : List (List F)) (n n_stmt : Nat) (a : List F) :
    (vwOf U n n_stmt a).length ≤ U.length := by
  rw [vwOf]
  exact foldl_scale_length_le _ _ _ [] U.length (by simp)
    (fun k _ => Us_length_le U n k)

theorem vsOf_length_le (U : List (List F)) (n n_stmt : Nat) (a : List F) :
    (vsOf U n n_stmt a).length ≤ U.length := by
  rw [vsOf]
  exact foldl_scale_length_le _ _ _ [] U.length (by simp)
    (fun k _ => Us_length_le U n k)

theorem vOf_length_le (U : List (List F)) (n n_stmt : Nat) (a : List F) :
    (vOf U n n_stmt a).length ≤ U.length := by
  rw [vOf]
  exact foldl_scale_length_le _ _ _ _ U.length (vwOf_length_le U n n_stmt a)
    (fun k _ => Us_length_le U n k)

theorem toP_vOf_split (U : List (List F)) (n n_stmt : Nat) (a : List F) :
    toP (vOf U n n_stmt a) = toP (vwOf U n n_stmt a) + toP (vsOf U n n_stmt a) := by
  rw [vOf, vsOf, toP_foldl_scale, toP_foldl_scale]
  show _ = _ + (toP [] + _)
  simp [toP]

theorem peval_pOf (U : List (List F)) (n n_stmt : Nat) (a : List F) (x : F) :
    peval (pOf U n n_stmt a) x =
      peval (vOf U n n_stmt a) x * peval (vOf U n n_stmt a) x - 1 := by
  rw [pOf, peval_psub, peval_pmul]
  have h1 : peval [(1 : F)] x = 1 := by simp [peval]
  rw [h1]

theorem pOf_trimmed (U : List (List F)) (n n_stmt : Nat) (a : List F) :
    trim (pOf U n n_stmt a) = pOf U n n_stmt a := psub_trimmed _ _

theorem pOf_length_le (U : List (List F)) (n n_stmt : Nat) (a : List F)
    (hm : 1 ≤ U.length) :
    (pOf U n n_stmt a).length ≤ 2 * U.length - 1 := by
  have hv := vOf_length_le U n n_stmt a
  have hmul := pmul_length_le (vOf U n n_stmt a) (vOf U n n_stmt a)
  have hsub := psub_length_le (pmul (vOf U n n_stmt a) (vOf U n n_stmt a)) [(1 : F)]
  rw [pOf]
  simp only [List.length_cons, List.length_nil] at hsub
  omega

theorem tOf_trimmed (m : Nat) : trim (tOf m : List F) = tOf m := vanishing_trimmed _

theorem tOf_ne_nil (m : Nat) : (tOf m : List F) ≠ [] := vanishing_ne_nil _

theorem tOf_length (m : Nat) : (tOf m : List F).length = m + 1 := by
  rw [tOf, length_vanishing, rsOf_length]

theorem peval_vOf_sum (U : List (List F)) (n n_stmt : Nat) (a : List F)
    (hstmt : n_stmt ≤ n) (x : F) :
    peval (vOf U n n_stmt a) x =
      ((List.range n).map (fun k => a.getD k 0 * peval ((UsOf U n).getD k []) x)).sum := by
  rw [vOf, peval_foldl_scale, vwOf, peval_foldl_scale, peval_nil, zero_add,
    List.range_eq_range' n, List.range_eq_range' n_stmt]
  have h2 : n - n_stmt + n_stmt = n := by omega
  have hsplit : List.range' 0 n = List.range' 0 n_stmt ++ List.range' n_stmt (n - n_stmt) := by
    calc List.range' 0 n = List.range' 0 (n - n_stmt + n_stmt) := by rw [h2]
      _ = List.range' 0 n_stmt ++ List.range' (0 + 1 * n_stmt) (n - n_stmt) :=
          (List.range'_append 0 n_stmt (n - n_stmt) 1).symm
      _ = List.range' 0 n_stmt ++ List.range' n_stmt (n - n_stmt) := by norm_num
  rw [hsplit, List.map_append, List.sum_append]
  ring

theorem dotRow_eq_sum (row a : List F) (n : Nat) (hrow : row.length = n)
    (ha : a.length = n) :
    dotRow row a = ((List.range n).map (fun k => a.getD k 0 * row.getD k 0)).sum := by
  induction row generalizing a n with
  | nil =>
    have hn : n = 0 := by simpa using hrow.symm
    subst hn
    simp [dotRow]
  | cons r rs ih =>
    cases a with
    | nil =>
      rw [← hrow] at ha
      simp at ha
    | cons x xs =>
      cases n with
      | zero => simp at hrow
      | succ n2 =>
        have hrow2 : rs.length = n2 := by simpa using hrow
        have ha2 : xs.length = n2 := by simpa using ha
        simp only [dotRow, List.zipWith_cons_cons, List.sum_cons]
        rw [show (List.zipWith (fun x y => x * y) rs xs).sum = dotRow rs xs from rfl,
          ih xs n2 hrow2 ha2, List.range_succ_eq_map, List.map_cons, List.sum_cons,
          List.map_map]
        have hterm : ((fun k => (x :: xs).getD k 0 * (r :: rs).getD k 0) ∘ Nat.succ) =
            (fun k => xs.getD k 0 * rs.getD k 0) := by
          funext k
          simp
        rw [hterm]
        simp [mul_comm]

theorem peval_vOf_node (U : List (List F)) (n n_stmt : Nat) (a : List F)
    (hU : ∀ row ∈ U, row.length = n) (ha : a.length = n) (hstmt : n_stmt ≤ n)
    (hnd : (rsOf U.length : List F).Nodup) (i : Nat) (hi : i < U.length) :
    peval (vOf U n n_stmt a) ((rsOf U.length : List F).getD i 0) =
      dotRow (U.getD i []) a := by
  have hmem : U.getD i [] ∈ U := by
    rw [List.getD_eq_getElem _ [] hi]
    exact List.getElem_mem hi
  rw [peval_vOf_sum U n n_stmt a hstmt, dotRow_eq_sum (U.getD i []) a n (hU _ hmem) ha]
  congr 1
  apply List.map_congr_left
  intro k hk
  rw [peval_Us_node U n k i hnd (List.mem_range.mp hk) hi]

theorem rem_nil_iff_SSP (n : Nat) (U : List (List F)) (n_stmt : Nat) (a : List F)
    (hU : ∀ row ∈ U, row.length = n) (ha : a.length = n) (hstmt : n_stmt ≤ n)
    (hnd : (rsOf U.length : List F).Nodup) :
    (pdivmod (pOf U n n_stmt a) (tOf U.length)).2 = [] ↔ SSP U a := by
  rw [pdivmod_rem_nil_iff _ _ (tOf_trimmed _) (tOf_ne_nil _) (pOf_trimmed U n n_stmt a)]
  rw [tOf, toP_vanishing]
  constructor
  · intro hdvd row hrow
    obtain ⟨i, hi, hrowi⟩ := List.getElem_of_mem hrow
    have hgd : U.getD i [] = row := by
      rw [List.getD_eq_getElem _ [] hi, hrowi]
    obtain ⟨q, hq⟩ := hdvd
    have hmem : (rsOf U.length : List F).getD i 0 ∈ (rsOf U.length : List F) := by
      have hlen : i < (rsOf U.length : List F).length := by
        rw [rsOf_length]
        exact hi
      rw [List.getD_eq_getElem _ 0 hlen]
      exact List.getElem_mem hlen
    have hev : peval (pOf U n n_stmt a) ((rsOf U.length : List F).getD i 0) = 0 := by
      rw [peval_toP, hq, Polynomial.eval_mul]
      have hz : ((List.map (fun s => Polynomial.X - Polynomial.C s)
          (rsOf U.length : List F)).prod).eval ((rsOf U.length : List F).getD i 0) = 0 := by
        rw [eval_linear_prod]
        exact List.prod_eq_zero (List.mem_map.mpr ⟨_, hmem, sub_self _⟩)
      rw [hz, zero_mul]
    rw [peval_pOf, peval_vOf_node U n n_stmt a hU ha hstmt hnd i hi, hgd] at hev
    exact sub_eq_zero.mp hev
  · intro hssp
    apply linear_prod_dvd _ _ hnd
    intro s hs
    obtain ⟨i, hi, hsi⟩ := List.getElem_of_mem hs
    have hi2 : i < U.length := by
      have := hi
      rw [rsOf_length] at this
      exact this
    have hgd : (rsOf U.length : List F).getD i 0 = s := by
      rw [List.getD_eq_getElem _ 0 hi, hsi]
    have hmem : U.getD i [] ∈ U := by
      rw [List.getD_eq_getElem _ [] hi2]
      exact List.getElem_mem hi2
    rw [← hgd, ← peval_toP, peval_pOf, peval_vOf_node U n n_stmt a hU ha hstmt hnd i hi2,
      hssp _ hmem]
    ring

/-! ### Characterizing the subscripted summation loops -/

theorem foldlM_pyIdx_ok (xs ys : List F) (f g : Nat → Nat) (L : List Nat) :
    ∀ acc : F, (∀ k ∈ L, f k < xs.length ∧ g k < ys.length) →
    L.foldlM (fun acc k => do
      let b ← pyIdx xs (f k)
      let c ← pyIdx ys (g k)
      pure (acc + b * c)) acc =
      .ok (acc + (L.map (fun k => xs.getD (f k) 0 * ys.getD (g k) 0)).sum) := by
  induction L with
  | nil =>
    intro acc h
    simp [List.foldlM_nil]
    rfl
  | cons k ks ih =>
    intro acc h
    obtain ⟨h1, h2⟩ := h k (by simp)
    have hstep : (do
        let b ← pyIdx xs (f k)
        let c ← pyIdx ys (g k)
        pure (acc + b * c) : Except PyErr F) = .ok (acc + xs[f k] * ys[g k]) := by
      simp only [pyIdx]
      rw [dif_pos h1, dif_pos h2]
      rfl
    rw [List.foldlM_cons, hstep]
    show ks.foldlM _ (acc + xs[f k] * ys[g k]) = _
    rw [ih _ (fun k2 hk2 => h k2 (by simp [hk2]))]
    rw [List.map_cons, List.sum_cons, List.getD_eq_getElem _ 0 h1,
      List.getD_eq_getElem _ 0 h2]
    rw [add_assoc]

theorem foldlM_pyIdx_err (xs ys : List F) (f g : Nat → Nat) (L : List Nat) :
    ∀ acc : F, (∃ k ∈ L, xs.length ≤ f k ∨ ys.length ≤ g k) →
    L.foldlM (fun acc k => do
      let b ← pyIdx xs (f k)
      let c ← pyIdx ys (g k)
      pure (acc + b * c)) acc = .error .indexError := by
  induction L with
  | nil =>
    intro acc h
    simp at h
  | cons k ks ih =>
    intro acc h
    obtain ⟨k2, hk2, hbound⟩ := h
    by_cases h1 : f k < xs.length
    · by_cases h2 : g k < ys.length
      · have hstep : (do
            let b ← pyIdx xs (f k)
            let c ← pyIdx ys (g k)
            pure (acc + b * c) : Except PyErr F) = .ok (acc + xs[f k] * ys[g k]) := by
          simp only [pyIdx]
          rw [dif_pos h1, dif_pos h2]
          rfl
        rw [List.foldlM_cons, hstep]
        show ks.foldlM _ (acc + xs[f k] * ys[g k]) = _
        apply ih
        rcases List.mem_cons.mp hk2 with he | hm
        · subst he
          omega
        · exact ⟨k2, hm, hbound⟩
      · have hstep : (do
            let b ← pyIdx xs (f k)
            let c ← pyIdx ys (g k)
            pure (acc + b * c) : Except PyErr F) = .error .indexError := by
          simp only [pyIdx]
          rw [dif_pos h1, dif_neg h2]
          rfl
        rw [List.foldlM_cons, hstep]
        rfl
    · have hstep : (do
          let b ← pyIdx xs (f k)
          let c ← pyIdx ys (g k)
          pure (acc + b * c) : Except PyErr F) = .error .indexError := by
        simp only [pyIdx]
        rw [dif_neg h1]
        rfl
      rw [List.foldlM_cons, hstep]
      rfl

theorem msum_ok (basis cs : List F) (cnt : Nat) (hb : cnt ≤ basis.length)
    (hc : cnt ≤ cs.length) :
    msum basis cs cnt =
      .ok (((List.range cnt).map (fun i => basis.getD i 0 * cs.getD i 0)).sum) := by
  have h := foldlM_pyIdx_ok basis cs (fun i => i) (fun i => i) (List.range cnt) 0
    (fun k hk => ⟨by show k < basis.length; have := List.mem_range.mp hk; omega,
      by show k < cs.length; have := List.mem_range.mp hk; omega⟩)
  rw [msum]
  rw [h]
  rw [zero_add]

theorem msum_err (basis cs : List F) (cnt : Nat)
    (h : ∃ k < cnt, basis.length ≤ k ∨ cs.length ≤ k) :
    msum basis cs cnt = .error .indexError := by
  obtain ⟨k, hk, hbound⟩ := h
  have he := foldlM_pyIdx_err basis cs (fun i => i) (fun i => i) (List.range cnt) 0
    ⟨k, List.mem_range.mpr hk, hbound⟩
  rw [msum]
  rw [he]

theorem bwSum_ok (bUis a : List F) (n_stmt n : Nat)
    (hb : ∀ k, n_stmt ≤ k → k < n → k - n_stmt < bUis.length ∧ k < a.length) :
    bwSum bUis a n_stmt n =
      .ok (((List.range' n_stmt (n - n_stmt)).map
        (fun k => bUis.getD (k - n_stmt) 0 * a.getD k 0)).sum) := by
  have h := foldlM_pyIdx_ok bUis a (fun k => k - n_stmt) (fun k => k) (List.range' n_stmt (n - n_stmt)) 0
    (fun k hk => by
      have hm := List.mem_range'_1.mp hk
      exact hb k hm.1 (by omega))
  rw [bwSum]
  rw [h]
  rw [zero_add]

theorem vsSumM_ok (Us : List (List F)) (g_a : List F) (g_n_stmt : Nat)
    (h1 : g_n_stmt ≤ g_a.length) (h2 : g_n_stmt ≤ Us.length) :
    vsSumM Us g_a g_n_stmt = .ok ((List.range g_n_stmt).foldl
      (fun acc k => padd acc (pscale (g_a.getD k 0) (Us.getD k []))) []) := by
  suffices haux : ∀ (L : List Nat) (acc : List F),
      (∀ k ∈ L, k < g_a.length ∧ k < Us.length) →
      L.foldlM (fun acc k => do
        let ak ← pyIdx g_a k
        let uk ← pyIdx Us k
        pure (padd acc (pscale ak uk))) acc =
      .ok (L.foldl (fun acc k => padd acc (pscale (g_a.getD k 0) (Us.getD k []))) acc) by
    exact haux (List.range g_n_stmt) []
      (fun k hk => ⟨by have := List.mem_range.mp hk; omega,
        by have := List.mem_range.mp hk; omega⟩)
  intro L
  induction L with
  | nil =>
    intro acc h
    simp [List.foldlM_nil]
    rfl
  | cons k ks ih =>
    intro acc h
    obtain ⟨hk1, hk2⟩ := h k (by simp)
    have hstep : (do
        let ak ← pyIdx g_a k
        let uk ← pyIdx Us k
        pure (padd acc (pscale ak uk)) : Except PyErr (List F)) =
        .ok (padd acc (pscale g_a[k] Us[k])) := by
      simp only [pyIdx]
      rw [dif_pos hk1, dif_pos hk2]
      rfl
    rw [List.foldlM_cons, hstep]
    show ks.foldlM _ (padd acc (pscale g_a[k] Us[k])) = _
    rw [ih _ (fun k2 hkk => h k2 (by simp [hkk]))]
    rw [List.foldl_cons, List.getD_eq_getElem _ 0 hk1, List.getD_eq_getElem _ [] hk2]

/-! ### Structure of the CRS produced by setup -/

theorem except_bind_ok {ε β γ : Type} (v : β) (f : β → Except ε γ) :
    (Except.ok v >>= f) = f v := rfl

theorem except_bind_err {ε β γ : Type} (e : ε) (f : β → Except ε γ) :
    ((Except.error e : Except ε β) >>= f) = Except.error e := rfl

theorem setup_ok (n : Nat) (U : List (List F)) (n_stmt : Nat) (rng : Nat → F)
    (hstmt : n_stmt < n) :
    babysnark_setup n U n_stmt rng =
      .ok (crsOf n U n_stmt rng, ⟨some (rng 0), some (rng 1), some (rng 2)⟩) := by
  rw [babysnark_setup, crsOf]
  simp [hstmt]

theorem setup_err (n : Nat) (U : List (List F)) (n_stmt : Nat) (rng : Nat → F)
    (hstmt : ¬ n_stmt < n) :
    babysnark_setup n U n_stmt rng = .error (.assertFail 121) := by
  rw [babysnark_setup]
  simp [hstmt]

theorem crsOf_length (n : Nat) (U : List (List F)) (n_stmt : Nat) (rng : Nat → F) :
    (crsOf n U n_stmt rng).length = (U.length + 1) + 2 + (n - n_stmt) := by
  simp [crsOf, UsOf_length]
  omega

theorem crsOf_take (n : Nat) (U : List (List F)) (n_stmt : Nat) (rng : Nat → F) :
    (crsOf n U n_stmt rng).take (U.length + 1) =
      (List.range (U.length + 1)).map (fun i => rng 0 ^ i) := by
  rw [crsOf, List.append_assoc]
  exact List.take_left' (by simp)

theorem crsOf_taus_getD (n : Nat) (U : List (List F)) (n_stmt : Nat) (rng : Nat → F)
    (i : Nat) (hi : i < U.length + 1) :
    ((crsOf n U n_stmt rng).take (U.length + 1)).getD i 0 = rng 0 ^ i := by
  rw [crsOf_take]
  have hlen : i < ((List.range (U.length + 1)).map (fun i => rng 0 ^ i)).length := by
    simpa using hi
  rw [List.getD_eq_getElem _ 0 hlen]
  simp

theorem crsOf_getD_gamma (n : Nat) (U : List (List F)) (n_stmt : Nat) (rng : Nat → F) :
    (crsOf n U n_stmt rng).getD (U.length + 1) 0 = rng 2 := by
  rw [crsOf, List.append_assoc]
  have hA : ((List.range (U.length + 1)).map (fun i => rng 0 ^ i)).length = U.length + 1 := by
    simp
  have hlen : U.length + 1 < (((List.range (U.length + 1)).map (fun i => rng 0 ^ i)) ++
      ([rng 2, rng 1 * rng 2] ++ (((UsOf U n).drop n_stmt).map
        (fun u => rng 1 * peval u (rng 0))))).length := by
    simp
  rw [List.getD_eq_getElem _ 0 hlen, List.getElem_append_right (by omega)]
  simp [hA]

theorem crsOf_getD_betagamma (n : Nat) (U : List (List F)) (n_stmt : Nat)
    (rng : Nat → F) :
    (crsOf n U n_stmt rng).getD (U.length + 2) 0 = rng 1 * rng 2 := by
  rw [crsOf, List.append_assoc]
  have hA : ((List.range (U.length + 1)).map (fun i => rng 0 ^ i)).length = U.length + 1 := by
    simp
  have hlen : U.length + 2 < (((List.range (U.length + 1)).map (fun i => rng 0 ^ i)) ++
      ([rng 2, rng 1 * rng 2] ++ (((UsOf U n).drop n_stmt).map
        (fun u => rng 1 * peval u (rng 0))))).length := by
    simp
    omega
  rw [List.getD_eq_getElem _ 0 hlen, List.getElem_append_right (by omega)]
  simp [hA]

theorem crsOf_slice (n : Nat) (U : List (List F)) (n_stmt : Nat) (rng : Nat → F)
    (hstmt : n_stmt < n) :
    pySliceFrom (crsOf n U n_stmt rng) (-((n : Int) - (n_stmt : Int))) =
      ((UsOf U n).drop n_stmt).map (fun u => rng 1 * peval u (rng 0)) := by
  rw [pySliceFrom]
  have hneg : ¬ (0 ≤ -((n : Int) - (n_stmt : Int))) := by omega
  rw [if_neg hneg]
  have htn : (-(-((n : Int) - (n_stmt : Int)))).toNat = n - n_stmt := by omega
  rw [htn, crsOf_length]
  have hd : (U.length + 1) + 2 + (n - n_stmt) - (n - n_stmt) = U.length + 3 := by omega
  rw [hd, crsOf]
  have hlen : (((List.range (U.length + 1)).map (fun i => rng 0 ^ i)) ++
      [rng 2, rng 1 * rng 2]).length = U.length + 3 := by
    simp
  exact List.drop_left' hlen

theorem crsOf_bUis_getD (n : Nat) (U : List (List F)) (n_stmt : Nat) (rng : Nat → F)
    (k : Nat) (hk1 : n_stmt ≤ k) (hk2 : k < n) :
    ((((UsOf U n).drop n_stmt).map (fun u => rng 1 * peval u (rng 0))).getD (k - n_stmt) 0)
      = rng 1 * peval ((UsOf U n).getD k []) (rng 0) := by
  have hdlen : ((UsOf U n).drop n_stmt).length = n - n_stmt := by
    rw [List.length_drop, UsOf_length]
  have hlen : k - n_stmt < (((UsOf U n).drop n_stmt).map
      (fun u => rng 1 * peval u (rng 0))).length := by
    rw [List.length_map, hdlen]
    omega
  rw [List.getD_eq_getElem _ 0 hlen]
  rw [List.getElem_map]
  have hk3 : k - n_stmt < ((UsOf U n).drop n_stmt).length := by
    rw [hdlen]
    omega
  have hg : ((UsOf U n).drop n_stmt)[k - n_stmt] = (UsOf U n).getD k [] := by
    rw [List.getElem_drop]
    have hke : n_stmt + (k - n_stmt) = k := by omega
    rw [List.getD_eq_getElem _ [] (by rw [UsOf_length]; omega)]
    congr 1
  rw [hg]

/-! ### Multi-scalar sums as polynomial evaluations -/

theorem peval_eq_sum (l : List F) (x : F) :
    peval l x = ((List.range l.length).map (fun i => x ^ i * l.getD i 0)).sum := by
  induction l with
  | nil => simp [peval]
  | cons c t ih =>
    show c + x * peval t x = _
    rw [ih, List.length_cons, List.range_succ_eq_map, List.map_cons, List.sum_cons,
      List.map_map]
    have hcomp : ((fun i => x ^ i * (c :: t).getD i 0) ∘ Nat.succ) =
        (fun i => x * (x ^ i * t.getD i 0)) := by
      funext i
      simp [pow_succ]
      ring
    rw [hcomp, List.sum_map_mul_left]
    simp

theorem msum_basis_eval (basis l : List F) (x : F) (cnt : Nat)
    (hb : ∀ i, i < cnt → basis.getD i 0 = x ^ i) (hcnt : l.length = cnt) :
    ((List.range cnt).map (fun i => basis.getD i 0 * l.getD i 0)).sum = peval l x := by
  rw [peval_eq_sum, hcnt]
  apply congrArg
  apply List.map_congr_left
  intro i hi
  rw [hb i (List.mem_range.mp hi)]

theorem foldlM_pyIdx_shape (xs ys : List F) (f g : Nat → Nat) (L : List Nat) :
    ∀ acc : F, (∃ v, L.foldlM (fun acc k => do
      let b ← pyIdx xs (f k)
      let c ← pyIdx ys (g k)
      pure (acc + b * c)) acc = .ok v) ∨
    L.foldlM (fun acc k => do
      let b ← pyIdx xs (f k)
      let c ← pyIdx ys (g k)
      pure (acc + b * c)) acc = .error .indexError := by
  induction L with
  | nil => exact fun acc => Or.inl ⟨acc, rfl⟩
  | cons k ks ih =>
    intro acc
    by_cases h1 : f k < xs.length
    · by_cases h2 : g k < ys.length
      · have hstep : (do
            let b ← pyIdx xs (f k)
            let c ← pyIdx ys (g k)
            pure (acc + b * c) : Except PyErr F) = .ok (acc + xs[f k] * ys[g k]) := by
          simp only [pyIdx]
          rw [dif_pos h1, dif_pos h2]
          rfl
        rw [List.foldlM_cons, hstep, except_bind_ok]
        exact ih _
      · have hstep : (do
            let b ← pyIdx xs (f k)
            let c ← pyIdx ys (g k)
            pure (acc + b * c) : Except PyErr F) = .error .indexError := by
          simp only [pyIdx]
          rw [dif_pos h1, dif_neg h2]
          rfl
        rw [List.foldlM_cons, hstep, except_bind_err]
        exact Or.inr rfl
    · have hstep : (do
          let b ← pyIdx xs (f k)
          let c ← pyIdx ys (g k)
          pure (acc + b * c) : Except PyErr F) = .error .indexError := by
        simp only [pyIdx]
        rw [dif_neg h1]
        rfl
      rw [List.foldlM_cons, hstep, except_bind_err]
      exact Or.inr rfl

theorem msum_shape (basis cs : List F) (cnt : Nat) :
    (∃ v, msum basis cs cnt = .ok v) ∨ msum basis cs cnt = .error .indexError := by
  rw [msum]
  exact foldlM_pyIdx_shape basis cs (fun i => i) (fun i => i) (List.range cnt) 0

theorem bwSum_shape (bUis a : List F) (n_stmt n : Nat) :
    (∃ v, bwSum bUis a n_stmt n = .ok v) ∨ bwSum bUis a n_stmt n = .error .indexError := by
  rw [bwSum]
  exact foldlM_pyIdx_shape bUis a (fun k => k - n_stmt) (fun k => k)
    (List.range' n_stmt (n - n_stmt)) 0

theorem peval_vOf_split (U : List (List F)) (n n_stmt : Nat) (a : List F) (x : F) :
    peval (vOf U n n_stmt a) x =
      peval (vwOf U n n_stmt a) x + peval (vsOf U n n_stmt a) x := by
  rw [peval_toP, toP_vOf_split, Polynomial.eval_add, ← peval_toP, ← peval_toP]

theorem peval_vwOf_sum (U : List (List F)) (n n_stmt : Nat) (a : List F) (x : F) :
    peval (vwOf U n n_stmt a) x =
      ((List.range' n_stmt (n - n_stmt)).map
        (fun k => a.getD k 0 * peval ((UsOf U n).getD k []) x)).sum := by
  rw [vwOf, peval_foldl_scale, peval_nil, zero_add]

theorem hq_length_le (U : List (List F)) (n n_stmt : Nat) (a : List F)
    (hm : 1 ≤ U.length) :
    ((pdivmod (pOf U n n_stmt a) (tOf U.length)).1).length ≤ U.length - 1 := by
  obtain ⟨_, _, _, _, e5⟩ := pdivmod_spec (pOf U n n_stmt a) (tOf U.length)
    (tOf_trimmed _) (tOf_ne_nil _) (pOf_trimmed U n n_stmt a)
  have hp := pOf_length_le U n n_stmt a hm
  rw [tOf_length] at e5
  omega

/-! ### Running the prover and verifier on an honest instance -/

theorem prover_run (n : Nat) (U : List (List F)) (n_stmt : Nat) (a : List F) (rng : Nat → F)
    (hU : ∀ row ∈ U, row.length = n) (hm : 1 ≤ U.length) (hstmt : n_stmt < n)
    (ha : a.length = n) (hnd : (rsOf U.length : List F).Nodup) (hssp : SSP U a)
    (hvw : (vwOf U n n_stmt a).length = U.length) :
    babysnark_prover n U n_stmt (crsOf n U n_stmt rng) a =
      .ok (peval (pdivmod (pOf U n n_stmt a) (tOf U.length)).1 (rng 0),
        rng 1 * peval (vwOf U n n_stmt a) (rng 0),
        peval (vwOf U n n_stmt a) (rng 0)) := by
  have hrem : (pdivmod (pOf U n n_stmt a) (tOf U.length)).2 = [] :=
    (rem_nil_iff_SSP n U n_stmt a hU ha (le_of_lt hstmt) hnd).mpr hssp
  have hexact : pOf U n n_stmt a =
      pmul (tOf U.length) (pdivmod (pOf U n n_stmt a) (tOf U.length)).1 :=
    (pdivmod_exact_iff _ _ (tOf_trimmed _) (tOf_ne_nil _) (pOf_trimmed U n n_stmt a)).mp hrem
  have hhq := hq_length_le U n n_stmt a hm
  have hc1 : n = a.length := ha.symm
  have hc2 : ((crsOf n U n_stmt rng).length : Int) =
      ((U.length : Int) + 1) + 2 + ((n : Int) - (n_stmt : Int)) := by
    rw [crsOf_length]
    omega
  have hc5 : (pdivmod (pOf U n n_stmt a) (tOf U.length)).1.length ≤ U.length := by omega
  have htaus_len : ((crsOf n U n_stmt rng).take (U.length + 1)).length = U.length + 1 := by
    rw [crsOf_take]
    simp
  have htaus : ∀ i, i < U.length + 1 →
      ((crsOf n U n_stmt rng).take (U.length + 1)).getD i 0 = rng 0 ^ i :=
    fun i hi => crsOf_taus_getD n U n_stmt rng i hi
  have hbounds : ∀ k, n_stmt ≤ k → k < n →
      k - n_stmt < (((UsOf U n).drop n_stmt).map
        (fun u => rng 1 * peval u (rng 0))).length ∧ k < a.length := by
    intro k hk1 hk2
    constructor
    · rw [List.length_map, List.length_drop, UsOf_length]
      omega
    · omega
  simp only [babysnark_prover]
  rw [if_pos hc1, if_pos hc2, if_pos hexact, if_pos hvw, if_pos hc5,
    crsOf_slice n U n_stmt rng hstmt]
  rw [msum_ok _ _ _ (by rw [htaus_len]; omega) (le_refl _), except_bind_ok]
  rw [msum_ok _ _ _ (by rw [htaus_len]; omega) (le_of_eq hvw.symm), except_bind_ok]
  rw [bwSum_ok _ _ _ _ hbounds, except_bind_ok]
  have hH : ((List.range (pdivmod (pOf U n n_stmt a) (tOf U.length)).1.length).map
      (fun i => ((crsOf n U n_stmt rng).take (U.length + 1)).getD i 0 *
        (pdivmod (pOf U n n_stmt a) (tOf U.length)).1.getD i 0)).sum =
      peval (pdivmod (pOf U n n_stmt a) (tOf U.length)).1 (rng 0) :=
    msum_basis_eval _ _ _ _ (fun i hi => htaus i (by omega)) rfl
  have hVw : ((List.range U.length).map
      (fun i => ((crsOf n U n_stmt rng).take (U.length + 1)).getD i 0 *
        (vwOf U n n_stmt a).getD i 0)).sum = peval (vwOf U n n_stmt a) (rng 0) :=
    msum_basis_eval _ _ _ _ (fun i hi => htaus i (by omega)) hvw
  have hBw : ((List.range' n_stmt (n - n_stmt)).map
      (fun k => (((UsOf U n).drop n_stmt).map
        (fun u => rng 1 * peval u (rng 0))).getD (k - n_stmt) 0 * a.getD k 0)).sum =
      rng 1 * peval (vwOf U n n_stmt a) (rng 0) := by
    have hcongr : ((List.range' n_stmt (n - n_stmt)).map
        (fun k => (((UsOf U n).drop n_stmt).map
          (fun u => rng 1 * peval u (rng 0))).getD (k - n_stmt) 0 * a.getD k 0)) =
        ((List.range' n_stmt (n - n_stmt)).map
          (fun k => rng 1 * (a.getD k 0 * peval ((UsOf U n).getD k []) (rng 0)))) := by
      apply List.map_congr_left
      intro k hk
      have hmk := List.mem_range'_1.mp hk
      rw [crsOf_bUis_getD n U n_stmt rng k hmk.1 (by omega)]
      ring
    rw [hcongr, List.sum_map_mul_left, ← peval_vwOf_sum]
  rw [hH, hVw, hBw]
  rfl

theorem verifier_run (n : Nat) (U : List (List F)) (n_stmt : Nat) (a : List F)
    (rng : Nat → F) (a_stmt : List F)
    (hU : ∀ row ∈ U, row.length = n) (hm : 1 ≤ U.length) (hstmt : n_stmt < n)
    (ha : a.length = n) (hnd : (rsOf U.length : List F).Nodup) (hssp : SSP U a)
    (hvw : (vwOf U n n_stmt a).length = U.length)
    (hvs : (vsOf U n n_stmt a).length = U.length) :
    babysnark_verifier n U (crsOf n U n_stmt rng) a_stmt
      (peval (pdivmod (pOf U n n_stmt a) (tOf U.length)).1 (rng 0),
       rng 1 * peval (vwOf U n n_stmt a) (rng 0),
       peval (vwOf U n n_stmt a) (rng 0)) n_stmt a = .ok true := by
  have hexact : pOf U n n_stmt a =
      pmul (tOf U.length) (pdivmod (pOf U n n_stmt a) (tOf U.length)).1 :=
    (pdivmod_exact_iff _ _ (tOf_trimmed _) (tOf_ne_nil _) (pOf_trimmed U n n_stmt a)).mp
      ((rem_nil_iff_SSP n U n_stmt a hU ha (le_of_lt hstmt) hnd).mpr hssp)
  have hlen1 : U.length + 1 < (crsOf n U n_stmt rng).length := by
    rw [crsOf_length]
    omega
  have hlen2 : U.length + 2 < (crsOf n U n_stmt rng).length := by
    rw [crsOf_length]
    omega
  have hg1 : pyIdx (crsOf n U n_stmt rng) (U.length + 1) = .ok (rng 2) := by
    have hv := crsOf_getD_gamma n U n_stmt rng
    rw [List.getD_eq_getElem _ 0 hlen1] at hv
    rw [pyIdx, dif_pos hlen1, hv]
  have hg2 : pyIdx (crsOf n U n_stmt rng) (U.length + 2) = .ok (rng 1 * rng 2) := by
    have hv := crsOf_getD_betagamma n U n_stmt rng
    rw [List.getD_eq_getElem _ 0 hlen2] at hv
    rw [pyIdx, dif_pos hlen2, hv]
  have htaus_len : ((crsOf n U n_stmt rng).take (U.length + 1)).length = U.length + 1 := by
    rw [crsOf_take]
    simp
  have htaus : ∀ i, i < U.length + 1 →
      ((crsOf n U n_stmt rng).take (U.length + 1)).getD i 0 = rng 0 ^ i :=
    fun i hi => crsOf_taus_getD n U n_stmt rng i hi
  have htlen : (tOf U.length : List F).length = U.length + 1 := tOf_length _
  have hvs_eq : (List.range n_stmt).foldl
      (fun acc k => padd acc (pscale (a.getD k 0) ((UsOf U n).getD k []))) [] =
      vsOf U n n_stmt a := rfl
  simp only [babysnark_verifier]
  rw [hg1, except_bind_ok, hg2, except_bind_ok]
  rw [msum_ok _ _ _ (by rw [htaus_len]) (le_of_eq htlen.symm), except_bind_ok]
  rw [vsSumM_ok (UsOf U n) a n_stmt (by omega) (by rw [UsOf_length]; omega),
    except_bind_ok, hvs_eq]
  rw [msum_ok _ _ _ (by rw [htaus_len]; omega) (le_of_eq hvs.symm), except_bind_ok]
  have hT : ((List.range (U.length + 1)).map
      (fun i => ((crsOf n U n_stmt rng).take (U.length + 1)).getD i 0 *
        (tOf U.length : List F).getD i 0)).sum = peval (tOf U.length : List F) (rng 0) :=
    msum_basis_eval _ _ _ _ (fun i hi => htaus i hi) htlen
  have hVs : ((List.range U.length).map
      (fun i => ((crsOf n U n_stmt rng).take (U.length + 1)).getD i 0 *
        (vsOf U n n_stmt a).getD i 0)).sum = peval (vsOf U n n_stmt a) (rng 0) :=
    msum_basis_eval _ _ _ _ (fun i hi => htaus i (by omega)) hvs
  rw [hT, hVs]
  have hck1 : pair (rng 1 * peval (vwOf U n n_stmt a) (rng 0)) (rng 2) =
      pair (peval (vwOf U n n_stmt a) (rng 0)) (rng 1 * rng 2) := by
    rw [pair, pair]
    ring
  rw [if_pos hck1]
  have hV : peval (vsOf U n n_stmt a) (rng 0) + peval (vwOf U n n_stmt a) (rng 0) =
      peval (vOf U n n_stmt a) (rng 0) := by
    rw [peval_vOf_split]
    ring
  have h1 : peval (pOf U n n_stmt a) (rng 0) =
      peval (tOf U.length : List F) (rng 0) *
        peval (pdivmod (pOf U n n_stmt a) (tOf U.length)).1 (rng 0) := by
    have h0 := congrArg (fun l => peval l (rng 0)) hexact
    simp only [] at h0
    rw [peval_pmul] at h0
    exact h0
  have h2 := peval_pOf U n n_stmt a (rng 0)
  have hck2 : pair (peval (pdivmod (pOf U n n_stmt a) (tOf U.length)).1 (rng 0))
        (peval (tOf U.length : List F) (rng 0)) + 1 =
      pair (peval (vsOf U n n_stmt a) (rng 0) + peval (vwOf U n n_stmt a) (rng 0))
        (peval (vsOf U n n_stmt a) (rng 0) + peval (vwOf U n n_stmt a) (rng 0)) := by
    rw [pair, pair, hV]
    linear_combination h2 - h1
  rw [if_pos hck2]
  rfl

theorem prover_do_no_assert (taus hq vw bUis a : List F) (m n_stmt n j : Nat) :
    (do
      let H ← msum taus hq hq.length
      let Vw ← msum taus vw m
      let Bw ← bwSum bUis a n_stmt n
      pure (H, Bw, Vw) : Except PyErr (F × F × F)) ≠ .error (.assertFail j) := by
  rcases msum_shape taus hq hq.length with ⟨v1, hv1⟩ | hv1
  · rw [hv1, except_bind_ok]
    rcases msum_shape taus vw m with ⟨v2, hv2⟩ | hv2
    · rw [hv2, except_bind_ok]
      rcases bwSum_shape bUis a n_stmt n with ⟨v3, hv3⟩ | hv3
      · rw [hv3, except_bind_ok]
        intro hcon
        exact Except.noConfusion hcon
      · rw [hv3, except_bind_err]
        intro hcon
        exact PyErr.noConfusion (Except.error.inj hcon)
    · rw [hv2, except_bind_err]
      intro hcon
      exact PyErr.noConfusion (Except.error.inj hcon)
  · rw [hv1, except_bind_err]
    intro hcon
    exact PyErr.noConfusion (Except.error.inj hcon)

theorem vsSumM_shape (Us : List (List F)) (g_a : List F) (g_n_stmt : Nat) :
    (∃ v, vsSumM Us g_a g_n_stmt = .ok v) ∨ vsSumM Us g_a g_n_stmt = .error .indexError := by
  rw [vsSumM]
  suffices haux : ∀ (L : List Nat) (acc : List F),
      (∃ v, L.foldlM (fun acc k => do
        let ak ← pyIdx g_a k
        let uk ← pyIdx Us k
        pure (padd acc (pscale ak uk))) acc = .ok v) ∨
      L.foldlM (fun acc k => do
        let ak ← pyIdx g_a k
        let uk ← pyIdx Us k
        pure (padd acc (pscale ak uk))) acc = .error .indexError by
    exact haux (List.range g_n_stmt) []
  intro L
  induction L with
  | nil => exact fun acc => Or.inl ⟨acc, rfl⟩
  | cons k ks ih =>
    intro acc
    by_cases h1 : k < g_a.length
    · by_cases h2 : k < Us.length
      · have hstep : (do
            let ak ← pyIdx g_a k
            let uk ← pyIdx Us k
            pure (padd acc (pscale ak uk)) : Except PyErr (List F)) =
            .ok (padd acc (pscale g_a[k] Us[k])) := by
          simp only [pyIdx]
          rw [dif_pos h1, dif_pos h2]
          rfl
        rw [List.foldlM_cons, hstep, except_bind_ok]
        exact ih _
      · have hstep : (do
            let ak ← pyIdx g_a k
            let uk ← pyIdx Us k
            pure (padd acc (pscale ak uk)) : Except PyErr (List F)) = .error .indexError := by
          simp only [pyIdx]
          rw [dif_pos h1, dif_neg h2]
          rfl
        rw [List.foldlM_cons, hstep, except_bind_err]
        exact Or.inr rfl
    · have hstep : (do
          let ak ← pyIdx g_a k
          let uk ← pyIdx Us k
          pure (padd acc (pscale ak uk)) : Except PyErr (List F)) = .error .indexError := by
        simp only [pyIdx]
        rw [dif_neg h1]
        rfl
      rw [List.foldlM_cons, hstep, except_bind_err]
      exact Or.inr rfl

theorem verifier_never_false (n : Nat) (U : List (List F)) (CRS a_stmt : List F)
    (pi : F × F × F) (g_n_stmt : Nat) (g_a : List F) :
    babysnark_verifier n U CRS a_stmt pi g_n_stmt g_a ≠ .ok false := by
  simp only [babysnark_verifier]
  by_cases h1 : U.length + 1 < CRS.length
  · rw [pyIdx, dif_pos h1, except_bind_ok]
    by_cases h2 : U.length + 2 < CRS.length
    · rw [pyIdx, dif_pos h2, except_bind_ok]
      rcases msum_shape (CRS.take (U.length + 1)) (tOf U.length) (U.length + 1) with
        ⟨v, hv⟩ | hv
      · rw [hv, except_bind_ok]
        rcases vsSumM_shape (UsOf U n) g_a g_n_stmt with ⟨vs, hvs⟩ | hvs
        · rw [hvs, except_bind_ok]
          rcases msum_shape (CRS.take (U.length + 1)) vs U.length with ⟨v2, hv2⟩ | hv2
          · rw [hv2, except_bind_ok]
            split
            · split
              · intro hcon
                exact Bool.noConfusion (Except.ok.inj hcon)
              · intro hcon
                exact Except.noConfusion hcon
            · intro hcon
              exact Except.noConfusion hcon
          · rw [hv2, except_bind_err]
            intro hcon
            exact Except.noConfusion hcon
        · rw [hvs, except_bind_err]
          intro hcon
          exact Except.noConfusion hcon
      · rw [hv, except_bind_err]
        intro hcon
        exact Except.noConfusion hcon
    · rw [pyIdx, dif_neg h2, except_bind_err]
      intro hcon
      exact Except.noConfusion hcon
  · rw [pyIdx, dif_neg h1, except_bind_err]
    intro hcon
    exact Except.noConfusion hcon

theorem getD_drop (l : List F) (i j : Nat) (h : i + j < l.length) :
    (l.drop i).getD j 0 = l.getD (i + j) 0 := by
  have hj : j < (l.drop i).length := by
    rw [List.length_drop]
    omega
  rw [List.getD_eq_getElem _ 0 hj, List.getD_eq_getElem _ 0 h, List.getElem_drop]

theorem crsOf_getD_tau (n : Nat) (U : List (List F)) (n_stmt : Nat) (rng : Nat → F)
    (i : Nat) (hi : i ≤ U.length) :
    (crsOf n U n_stmt rng).getD i 0 = rng 0 ^ i := by
  rw [crsOf, List.append_assoc]
  have hA : i < ((List.range (U.length + 1)).map (fun i => rng 0 ^ i)).length := by
    simp
    omega
  have hlen : i < (((List.range (U.length + 1)).map (fun i => rng 0 ^ i)) ++
      ([rng 2, rng 1 * rng 2] ++ (((UsOf U n).drop n_stmt).map
        (fun u => rng 1 * peval u (rng 0))))).length := by
    simp
    omega
  rw [List.getD_eq_getElem _ 0 hlen, List.getElem_append_left hA]
  simp

theorem crsOf_getD_bU (n : Nat) (U : List (List F)) (n_stmt : Nat) (rng : Nat → F)
    (k : Nat) (hk1 : n_stmt ≤ k) (hk2 : k < n) :
    (crsOf n U n_stmt rng).getD ((U.length + 3) + (k - n_stmt)) 0 =
      rng 1 * peval ((UsOf U n).getD k []) (rng 0) := by
  have hdrop : (crsOf n U n_stmt rng).drop (U.length + 3) =
      ((UsOf U n).drop n_stmt).map (fun u => rng 1 * peval u (rng 0)) := by
    rw [crsOf]
    have hlen : ((((List.range (U.length + 1)).map (fun i => rng 0 ^ i)) ++
        [rng 2, rng 1 * rng 2])).length = U.length + 3 := by
      simp
    exact List.drop_left' hlen
  have hin : (U.length + 3) + (k - n_stmt) < (crsOf n U n_stmt rng).length := by
    rw [crsOf_length]
    omega
  rw [← getD_drop _ _ _ hin, hdrop]
  exact crsOf_bUis_getD n U n_stmt rng k hk1 hk2

/-! ### The claims -/

/-- C1, counterexample: the completeness statement is false as stated.  The
instance U = [[1, 0]], a = [1, 0], n_stmt = 1 < n = 2 satisfies the SSP
invariant, yet the end-to-end run aborts inside the prover with the
AssertionError of line 174 (`len(vw.coefficients) == m` fails because the
witness polynomial vw is identically zero), so the verifier never returns
true. -/
theorem C1_counterexample :
    SSP [[(1 : F13), 0]] [1, 0] ∧ (1 : Nat) < 2 ∧
    script_run 2 [[(1 : F13), 0]] 1 [1, 0] (fun _ => 3) = .error (.assertFail 174) ∧
    script_run 2 [[(1 : F13), 0]] 1 [1, 0] (fun _ => 3) ≠ .ok true :=
  ⟨by decide, by decide, by decide, by decide⟩

/-- C1, amended: completeness holds for every SSP-satisfying instance in
which, additionally, the constraint system is nonempty, the trimmed
witness polynomial vw has exactly m coefficients and the trimmed
statement polynomial vs has exactly m coefficients (these side conditions
are what the source's asserts at line 174 and its subscripting at line
221 require): setup, then the prover on the full witness, then the
verifier on the statement slice returns true — for every choice of the
trapdoor randomness, with the evaluation nodes 1..m distinct in the
field. -/
theorem C1_completeness_amended (n : Nat) (U : List (List F)) (n_stmt : Nat)
    (a : List F) (rng : Nat → F)
    (hU : ∀ row ∈ U, row.length = n) (hm : 1 ≤ U.length) (hstmt : n_stmt < n)
    (ha : a.length = n) (hnd : (rsOf U.length : List F).Nodup) (hssp : SSP U a)
    (hvw : (vwOf U n n_stmt a).length = U.length)
    (hvs : (vsOf U n n_stmt a).length = U.length) :
    script_run n U n_stmt a rng = .ok true := by
  simp only [script_run]
  rw [setup_ok n U n_stmt rng hstmt, except_bind_ok]
  show (do
    let pi ← babysnark_prover n U n_stmt (crsOf n U n_stmt rng) a
    babysnark_verifier n U (crsOf n U n_stmt rng) (a.take n_stmt) pi n_stmt a) = .ok true
  rw [prover_run n U n_stmt a rng hU hm hstmt ha hnd hssp hvw, except_bind_ok]
  exact verifier_run n U n_stmt a rng (a.take n_stmt) hU hm hstmt ha hnd hssp hvw hvs

/-- C1, witness for the amended completeness theorem at a concrete
instance over F13: U = [[1, 1]], a = [2, -1], n_stmt = 1, trapdoor
(3, 3, 3). -/
theorem C1_witness : script_run 2 [[(1 : F13), 1]] 1 [2, 12] (fun _ => 3) = .ok true :=
  C1_completeness_amended 2 [[(1 : F13), 1]] 1 [2, 12] (fun _ => 3) (by decide) (by decide)
    (by decide) (by decide) (by decide) (by decide) (by decide) (by decide)

/-- C2: the verifier does not return a boolean reject.  On an input whose
first pairing check fails it raises the AssertionError of line 226; on an
input whose second pairing check fails it raises the AssertionError of
line 230; and on no input at all does it return `false` — rejection is
never a returned boolean, contrary to the claim. -/
theorem C2_verifier_raises :
    babysnark_verifier 2 [[(1 : F13), 0]] [1, 1, 1, 1, 1] [1] (0, 1, 0) 1 [1, 0] =
      .error (.assertFail 226) ∧
    babysnark_verifier 2 [[(1 : F13), 0]] [1, 1, 1, 1, 1] [1] (0, 0, 0) 1 [2, 0] =
      .error (.assertFail 230) ∧
    ∀ (n : Nat) (U : List (List F13)) (CRS a_stmt : List F13) (pi : F13 × F13 × F13)
      (g_n_stmt : Nat) (g_a : List F13),
        babysnark_verifier n U CRS a_stmt pi g_n_stmt g_a ≠ .ok false :=
  ⟨by decide, by decide,
    fun n U CRS a_stmt pi g_n_stmt g_a => verifier_never_false n U CRS a_stmt pi g_n_stmt g_a⟩

/-- C3: the verifier is not a pure function of its arguments (U, CRS,
a_stmt, proof): with every one of those arguments identical, changing
only the module-level global `a` (read at line 219 in place of the unused
`a_stmt` parameter) changes the result from accepting to an IndexError. -/
theorem C3_verifier_global_dependence :
    babysnark_verifier 2 [[(1 : F13), 0]] [1, 1, 1, 1, 1] [1] (0, 0, 0) 1 [1, 0] =
      .ok true ∧
    babysnark_verifier 2 [[(1 : F13), 0]] [1, 1, 1, 1, 1] [1] (0, 0, 0) 1 [0, 0] =
      .error .indexError :=
  ⟨by decide, by decide⟩

/-- C4: the setup retains the trapdoor beyond the call: after
`babysnark_setup` returns, the module globals `tau`, `beta`, `gamma`
(assigned at lines 131-134 under `global tau, beta, gamma`) still hold
the sampled trapdoor scalars 3, 4, 5 next to the returned CRS, so the
trapdoor survives the Setup call in long-lived state. -/
theorem C4_setup_retains_trapdoor :
    babysnark_setup 2 [[(1 : F13), 1]] 1 (fun i => (3 + (i : F13))) =
      .ok ([1, 3, 5, 7, 4], ⟨some 3, some 4, some 5⟩) := by
  decide

/-- C5: on a well-shaped call (witness length n, CRS of the expected
length, distinct evaluation nodes), if the witness does not satisfy the
SSP invariant — equivalently, if the remainder of p = v*v - 1 by the
vanishing polynomial t is nonzero — the prover aborts with the
unsatisfied-constraint AssertionError of line 173 (`p == t * h`) and
emits no proof; if the witness satisfies the invariant the division is
exact (nil remainder) and the prover gets past that check. -/
theorem C5_unsatisfied_constraint (n : Nat) (U : List (List F)) (n_stmt : Nat)
    (CRS a : List F)
    (hU : ∀ row ∈ U, row.length = n) (hstmt : n_stmt ≤ n) (ha : a.length = n)
    (hnd : (rsOf U.length : List F).Nodup)
    (hcrs : (CRS.length : Int) = ((U.length : Int) + 1) + 2 + ((n : Int) - (n_stmt : Int))) :
    (¬ SSP U a → babysnark_prover n U n_stmt CRS a = .error (.assertFail 173)) ∧
    (SSP U a → (pdivmod (pOf U n n_stmt a) (tOf U.length)).2 = [] ∧
      babysnark_prover n U n_stmt CRS a ≠ .error (.assertFail 173)) := by
  have hiff := rem_nil_iff_SSP n U n_stmt a hU ha hstmt hnd
  have hexact_iff := pdivmod_exact_iff (pOf U n n_stmt a) (tOf U.length)
    (tOf_trimmed _) (tOf_ne_nil _) (pOf_trimmed U n n_stmt a)
  constructor
  · intro hnssp
    have hrem : (pdivmod (pOf U n n_stmt a) (tOf U.length)).2 ≠ [] :=
      fun h => hnssp (hiff.mp h)
    have hne : pOf U n n_stmt a ≠
        pmul (tOf U.length) (pdivmod (pOf U n n_stmt a) (tOf U.length)).1 :=
      fun h => hrem (hexact_iff.mpr h)
    simp only [babysnark_prover]
    rw [if_pos ha.symm, if_pos hcrs, if_neg hne]
  · intro hssp
    have hrem := hiff.mpr hssp
    refine ⟨hrem, ?_⟩
    have hexact := hexact_iff.mp hrem
    simp only [babysnark_prover]
    rw [if_pos ha.symm, if_pos hcrs, if_pos hexact]
    by_cases h4 : (vwOf U n n_stmt a).length = U.length
    · rw [if_pos h4]
      by_cases h5 : (pdivmod (pOf U n n_stmt a) (tOf U.length)).1.length ≤ U.length
      · rw [if_pos h5]
        exact prover_do_no_assert _ _ _ _ _ _ _ _ 173
      · rw [if_neg h5]
        intro hcon
        exact absurd (PyErr.assertFail.inj (Except.error.inj hcon)) (by omega)
    · rw [if_neg h4]
      intro hcon
      exact absurd (PyErr.assertFail.inj (Except.error.inj hcon)) (by omega)

/-- C5, witness at a concrete satisfying instance over F13. -/
theorem C5_witness :
    (¬ SSP [[(1 : F13), 1]] [2, 12] →
      babysnark_prover 2 [[(1 : F13), 1]] 1 [1, 1, 1, 1, 1] [2, 12] =
        .error (.assertFail 173)) ∧
    (SSP [[(1 : F13), 1]] [2, 12] →
      (pdivmod (pOf [[(1 : F13), 1]] 2 1 [2, 12]) (tOf 1)).2 = [] ∧
      babysnark_prover 2 [[(1 : F13), 1]] 1 [1, 1, 1, 1, 1] [2, 12] ≠
        .error (.assertFail 173)) :=
  C5_unsatisfied_constraint 2 [[(1 : F13), 1]] 1 [1, 1, 1, 1, 1] [2, 12]
    (by decide) (by decide) (by decide) (by decide) (by decide)

/-- C6, counterexample: the degree-sanity claim is false as stated.  On
the SSP-satisfying instance U = [[1, 0]], a = [1, 0] with a well-formed
CRS, the witness polynomial vw is zero, so its degree is below m = 1 and
the quotient h satisfies its bound — both claimed bounds hold — yet the
check at line 174 fails (`len(vw.coefficients) == m` demands exactly m
coefficients, not at most m). -/
theorem C6_counterexample :
    (vwOf [[(1 : F13), 0]] 2 1 [1, 0]).length ≤ 1 ∧
    (pdivmod (pOf [[(1 : F13), 0]] 2 1 [1, 0]) (tOf 1)).1.length ≤ 1 ∧
    SSP [[(1 : F13), 0]] [1, 0] ∧
    babysnark_prover 2 [[(1 : F13), 0]] 1 [1, 1, 1, 1, 1] [1, 0] =
      .error (.assertFail 174) :=
  ⟨by decide, by decide, by decide, by decide⟩

/-- C6, amended: on a call that reaches the degree checks (witness length
matches, CRS length matches, exact division), the first degree-sanity
assert (line 174) passes exactly when the trimmed vw has exactly m
coefficients — not merely at most m — and, when it passes, the second
(line 175) passes exactly when the trimmed quotient h has at most m
coefficients. -/
theorem C6_degree_check_amended (n : Nat) (U : List (List F)) (n_stmt : Nat)
    (CRS a : List F) (ha : a.length = n)
    (hcrs : (CRS.length : Int) = ((U.length : Int) + 1) + 2 + ((n : Int) - (n_stmt : Int)))
    (hrem : (pdivmod (pOf U n n_stmt a) (tOf U.length)).2 = []) :
    (babysnark_prover n U n_stmt CRS a = .error (.assertFail 174) ↔
      (vwOf U n n_stmt a).length ≠ U.length) ∧
    ((vwOf U n n_stmt a).length = U.length →
      (babysnark_prover n U n_stmt CRS a = .error (.assertFail 175) ↔
        ¬ (pdivmod (pOf U n n_stmt a) (tOf U.length)).1.length ≤ U.length)) := by
  have hexact := (pdivmod_exact_iff (pOf U n n_stmt a) (tOf U.length)
    (tOf_trimmed _) (tOf_ne_nil _) (pOf_trimmed U n n_stmt a)).mp hrem
  simp only [babysnark_prover]
  rw [if_pos ha.symm, if_pos hcrs, if_pos hexact]
  constructor
  · constructor
    · intro hres
      by_contra h4n
      rw [if_pos h4n] at hres
      by_cases h5 : (pdivmod (pOf U n n_stmt a) (tOf U.length)).1.length ≤ U.length
      · rw [if_pos h5] at hres
        exact (prover_do_no_assert _ _ _ _ _ _ _ _ 174) hres
      · rw [if_neg h5] at hres
        exact absurd (PyErr.assertFail.inj (Except.error.inj hres)) (by omega)
    · intro h4
      rw [if_neg h4]
  · intro h4
    rw [if_pos h4]
    constructor
    · intro hres
      by_contra h5n
      rw [if_pos h5n] at hres
      exact (prover_do_no_assert _ _ _ _ _ _ _ _ 175) hres
    · intro h5
      rw [if_neg h5]

/-- C6, witness for the amended theorem at a concrete instance over F13
whose vw does have exactly m coefficients. -/
theorem C6_witness :
    (babysnark_prover 2 [[(1 : F13), 1]] 1 [1, 1, 1, 1, 1] [2, 12] =
        .error (.assertFail 174) ↔
      (vwOf [[(1 : F13), 1]] 2 1 [2, 12]).length ≠ 1) ∧
    ((vwOf [[(1 : F13), 1]] 2 1 [2, 12]).length = 1 →
      (babysnark_prover 2 [[(1 : F13), 1]] 1 [1, 1, 1, 1, 1] [2, 12] =
          .error (.assertFail 175) ↔
        ¬ (pdivmod (pOf [[(1 : F13), 1]] 2 1 [2, 12]) (tOf 1)).1.length ≤ 1)) :=
  C6_degree_check_amended 2 [[(1 : F13), 1]] 1 [1, 1, 1, 1, 1] [2, 12]
    (by decide) (by decide) (by decide)

/-- C7: a successful setup returns a CRS that is an ordered sequence of
exactly (m+1) + 2 + (n - n_stmt) group elements: the tau powers at
indices 0..m, gamma at index m+1, beta*gamma at index m+2, and the
beta-blinded witness-only column evaluations beta * U_k(tau) after them,
one per column k in [n_stmt, n). -/
theorem C7_crs_shape (n : Nat) (U : List (List F)) (n_stmt : Nat) (rng : Nat → F)
    (hstmt : n_stmt < n) :
    ∃ CRS g, babysnark_setup n U n_stmt rng = .ok (CRS, g) ∧
      CRS.length = (U.length + 1) + 2 + (n - n_stmt) ∧
      (∀ i, i ≤ U.length → CRS.getD i 0 = rng 0 ^ i) ∧
      CRS.getD (U.length + 1) 0 = rng 2 ∧
      CRS.getD (U.length + 2) 0 = rng 1 * rng 2 ∧
      ∀ k, n_stmt ≤ k → k < n →
        CRS.getD ((U.length + 3) + (k - n_stmt)) 0 =
          rng 1 * peval ((UsOf U n).getD k []) (rng 0) :=
  ⟨crsOf n U n_stmt rng, ⟨some (rng 0), some (rng 1), some (rng 2)⟩,
    setup_ok n U n_stmt rng hstmt, crsOf_length n U n_stmt rng,
    fun i hi => crsOf_getD_tau n U n_stmt rng i hi,
    crsOf_getD_gamma n U n_stmt rng, crsOf_getD_betagamma n U n_stmt rng,
    fun k hk1 hk2 => crsOf_getD_bU n U n_stmt rng k hk1 hk2⟩

/-- C7, witness: the spec's concrete scenario m = 10, n = 6, n_stmt = 4
yields a CRS of length (10+1) + 2 + (6-4) = 15. -/
theorem C7_witness :
    ∃ CRS g, babysnark_setup 6 (List.replicate 10 (List.replicate 6 (0 : F13))) 4
      (fun _ => 3) = .ok (CRS, g) ∧ CRS.length = 15 := by
  obtain ⟨CRS, g, h1, h2, _⟩ := C7_crs_shape 6
    (List.replicate 10 (List.replicate 6 (0 : F13))) 4 (fun _ => 3) (by decide)
  refine ⟨CRS, g, h1, ?_⟩
  rw [h2]
  decide

/-- C8: when n_stmt is not below n the setup fails immediately with the
invalid-split AssertionError of line 121, producing neither a CRS nor
any trapdoor state (the error carries nothing); when n_stmt < n it
proceeds and returns a CRS. -/
theorem C8_invalid_split (n : Nat) (U : List (List F)) (n_stmt : Nat) (rng : Nat → F) :
    (¬ n_stmt < n → babysnark_setup n U n_stmt rng = .error (.assertFail 121)) ∧
    (n_stmt < n → ∃ CRSg, babysnark_setup n U n_stmt rng = .ok CRSg) :=
  ⟨fun h => setup_err n U n_stmt rng h, fun h => ⟨_, setup_ok n U n_stmt rng h⟩⟩

/-- C8, witness: a setup call with n_stmt = n = 1 fails with the
invalid-split assert. -/
theorem C8_witness :
    babysnark_setup 1 [[(0 : F13)]] 1 (fun _ => 3) = .error (.assertFail 121) :=
  (C8_invalid_split 1 [[(0 : F13)]] 1 (fun _ => 3)).1 (by decide)

/-- C9: on a prover call whose witness has the right length, a CRS whose
length differs from (m+1) + 2 + (n - n_stmt) makes the prover abort with
the malformed-CRS AssertionError of line 146 before any proof element is
computed, and a CRS of matching length passes that check (the prover
never raises that particular error). -/
theorem C9_malformed_crs (n : Nat) (U : List (List F)) (n_stmt : Nat) (CRS a : List F)
    (ha : a.length = n) :
    ((CRS.length : Int) ≠ ((U.length : Int) + 1) + 2 + ((n : Int) - (n_stmt : Int)) →
      babysnark_prover n U n_stmt CRS a = .error (.assertFail 146)) ∧
    ((CRS.length : Int) = ((U.length : Int) + 1) + 2 + ((n : Int) - (n_stmt : Int)) →
      babysnark_prover n U n_stmt CRS a ≠ .error (.assertFail 146)) := by
  constructor
  · intro hne
    simp only [babysnark_prover]
    rw [if_pos ha.symm, if_neg hne]
  · intro heq
    simp only [babysnark_prover]
    rw [if_pos ha.symm, if_pos heq]
    by_cases h3 : pOf U n n_stmt a =
        pmul (tOf U.length) (pdivmod (pOf U n n_stmt a) (tOf U.length)).1
    · rw [if_pos h3]
      by_cases h4 : (vwOf U n n_stmt a).length = U.length
      · rw [if_pos h4]
        by_cases h5 : (pdivmod (pOf U n n_stmt a) (tOf U.length)).1.length ≤ U.length
        · rw [if_pos h5]
          exact prover_do_no_assert _ _ _ _ _ _ _ _ 146
        · rw [if_neg h5]
          intro hcon
          exact absurd (PyErr.assertFail.inj (Except.error.inj hcon)) (by omega)
      · rw [if_neg h4]
        intro hcon
        exact absurd (PyErr.assertFail.inj (Except.error.inj hcon)) (by omega)
    · rw [if_neg h3]
      intro hcon
      exact absurd (PyErr.assertFail.inj (Except.error.inj hcon)) (by omega)

/-- C9, witness: a CRS one element short triggers the malformed-CRS
assert. -/
theorem C9_witness :
    babysnark_prover 2 [[(1 : F13), 1]] 1 [1, 1, 1, 1] [2, 12] =
      .error (.assertFail 146) :=
  (C9_malformed_crs 2 [[(1 : F13), 1]] 1 [1, 1, 1, 1] [2, 12] (by decide)).1 (by decide)

/-- C10: whenever the verifier reaches its statement-side multi-scalar
sum (the CRS is long enough to parse and the globals are in range for
the vs loop) and the trimmed statement polynomial vs has fewer than m
coefficients — an all-zero statement, for instance — the subscript
`vs.coefficients[i]` at line 221 is out of range and the verifier raises
IndexError instead of returning a verdict. -/
theorem C10_vs_index_error (n : Nat) (U : List (List F)) (CRS a_stmt : List F)
    (pi : F × F × F) (g_n_stmt : Nat) (g_a : List F)
    (hcrs : U.length + 3 ≤ CRS.length)
    (h1 : g_n_stmt ≤ g_a.length) (h2 : g_n_stmt ≤ n)
    (hvs : (vsOf U n g_n_stmt g_a).length < U.length) :
    babysnark_verifier n U CRS a_stmt pi g_n_stmt g_a = .error .indexError := by
  have hb1 : U.length + 1 < CRS.length := by omega
  have hb2 : U.length + 2 < CRS.length := by omega
  have htaus_len : (CRS.take (U.length + 1)).length = U.length + 1 := by
    rw [List.length_take]
    omega
  have hvs_eq : (List.range g_n_stmt).foldl
      (fun acc k => padd acc (pscale (g_a.getD k 0) ((UsOf U n).getD k []))) [] =
      vsOf U n g_n_stmt g_a := rfl
  simp only [babysnark_verifier]
  rw [pyIdx, dif_pos hb1, except_bind_ok, pyIdx, dif_pos hb2, except_bind_ok]
  rw [msum_ok _ _ _ (le_of_eq htaus_len.symm) (le_of_eq (tOf_length U.length).symm),
    except_bind_ok]
  rw [vsSumM_ok (UsOf U n) g_a g_n_stmt h1 (by rw [UsOf_length]; omega), except_bind_ok,
    hvs_eq]
  rw [msum_err _ _ _ ⟨(vsOf U n g_n_stmt g_a).length, hvs, Or.inr (le_refl _)⟩,
    except_bind_err]

/-- C10, witness: the all-zero statement prefix makes vs the zero
polynomial, whose trimmed coefficient list is empty, and the verifier
raises IndexError. -/
theorem C10_witness :
    babysnark_verifier 2 [[(1 : F13), 0]] [1, 1, 1, 1, 1] [1] (0, 0, 0) 1 [0, 5] =
      .error .indexError :=
  C10_vs_index_error 2 [[(1 : F13), 0]] [1, 1, 1, 1, 1] [1] (0, 0, 0) 1 [0, 5]
    (by decide) (by decide) (by decide) (by decide)

end BabySnark
